import Mathlib

/-!
# husky: eviction caches (`core/cache.hpp`) and the page registry (`core/page_store.cpp`)

Shallow embedding of `LRUCache`, `FIFOCache` and `PageStore`.

* `std::list<std::pair<KeyT, ValueT>>` is a list of nodes, each carrying the address that
  its iterators designate; address `0` is the past-the-end position `end()`.
* `std::unordered_map<KeyT, ListIterator>` is an association list from keys to addresses.
* Reading through an iterator whose node has been destroyed is undefined in C++; the embedding
  makes such a read visible as `Deref.dangling` instead of inventing a value for it.
-/

namespace husky

/-- One node of `cache_list_`: the address iterators refer to, and the stored pair. -/
structure Node (K V : Type) where
  addr : Nat
  first : K
  second : V
deriving DecidableEq, Repr

/-- Outcome of reading `*it`: the pair held by the live node, or a read of a destroyed node. -/
inductive Deref (α : Type) where
  | value (a : α)
  | dangling
deriving DecidableEq, Repr

/-- Members of `LRUCache` / `FIFOCache` (both classes declare the same three), together with
the next address the list allocator hands out. -/
structure Cache (K V : Type) where
  size_ : Nat
  cache_map_ : List (K × Nat)
  cache_list_ : List (Node K V)
  next_addr : Nat
deriving DecidableEq, Repr

section containers

variable {K V : Type} [DecidableEq K]

/-- Lookup `cache_map_.find(key)`: `none` is `cache_map_.end()`. -/
def map_find (m : List (K × Nat)) (key : K) : Option Nat :=
  (m.find? (fun e => decide (e.1 = key))).map (fun e => e.2)

/-- Removal `cache_map_.erase(...)` of the element with the given key. -/
def map_erase (m : List (K × Nat)) (key : K) : List (K × Nat) :=
  m.filter (fun e => decide (e.1 ≠ key))

/-- Assignment `cache_map_[key] = it`: overwrite when present, insert otherwise. -/
def map_assign (m : List (K × Nat)) (key : K) (it : Nat) : List (K × Nat) :=
  if (map_find m key).isSome then m.map (fun e => if e.1 = key then (key, it) else e)
  else (key, it) :: m

/-- Iterator `cache_list_.begin()`: the head node, or `end()` (address 0) when empty. -/
def list_begin (l : List (Node K V)) : Nat :=
  match l with
  | [] => 0
  | n :: _ => n.addr

/-- Removal `cache_list_.erase(it)` of the node an iterator designates. -/
def list_erase (l : List (Node K V)) (it : Nat) : List (Node K V) :=
  l.filter (fun n => decide (n.addr ≠ it))

/-- Read `*it` in the list `l`. -/
def list_deref (l : List (Node K V)) (it : Nat) : Deref (K × V) :=
  match l.find? (fun n => decide (n.addr = it)) with
  | some n => Deref.value (n.first, n.second)
  | none => Deref.dangling

/-- Read `it->second` in the list `l`. -/
def list_deref_second (l : List (Node K V)) (it : Nat) : Deref V :=
  match list_deref l it with
  | Deref.value p => Deref.value p.2
  | Deref.dangling => Deref.dangling

/-- Read `cache_list_.back()`. -/
def list_back (l : List (Node K V)) : Deref (K × V) :=
  match l.getLast? with
  | some n => Deref.value (n.first, n.second)
  | none => Deref.dangling

end containers

/-- Constructor `CacheBase(size)` with both containers empty. -/
def Cache.mk_empty (K V : Type) (size : Nat) : Cache K V :=
  { size_ := size, cache_map_ := [], cache_list_ := [], next_addr := 1 }

/-- Accessor `CacheBase::get_max_size`. -/
def Cache.get_max_size {K V : Type} (s : Cache K V) : Nat := s.size_

/-- The stored pairs in list order, head first. -/
def Cache.entries {K V : Type} (s : Cache K V) : List (K × V) :=
  s.cache_list_.map (fun n => (n.first, n.second))

namespace LRUCache

variable {K V : Type} [DecidableEq K]

/-- Method `LRUCache::del` (cache.hpp 87-98). The returned optional is built from `*last`
after `pop_back()` has run, so the read is made in the list as it is after the pop. When the
list has no node to step back to (excluded by the invariant) nothing is changed. -/
def del (s : Cache K V) : Option (Deref (K × V)) × Cache K V :=
  if s.cache_map_.length = 0 then (none, s)
  else
    match s.cache_list_.getLast? with
    | none => (some Deref.dangling, s)
    | some last =>
      let key := last.first
      let m := map_erase s.cache_map_ key
      let l := s.cache_list_.dropLast
      (some (list_deref l last.addr), { s with cache_map_ := m, cache_list_ := l })

/-- Method `LRUCache::put(const KeyT&, const ValueT&)` (cache.hpp 73-85). -/
def put (s : Cache K V) (key : K) (val : V) : Cache K V :=
  let it_cache := map_find s.cache_map_ key
  let l1 := (⟨s.next_addr, key, val⟩ : Node K V) :: s.cache_list_
  let l2 := match it_cache with
    | some it => list_erase l1 it
    | none => l1
  let m2 := match it_cache with
    | some _ => map_erase s.cache_map_ key
    | none => s.cache_map_
  let m3 := map_assign m2 key (list_begin l2)
  let s3 := { s with cache_map_ := m3, cache_list_ := l2, next_addr := s.next_addr + 1 }
  if s3.cache_map_.length > s3.size_ then (del s3).2 else s3

/-- Method `LRUCache::put(KeyT&&, ValueT&&)` (cache.hpp 59-71): the same steps, the
arguments being moved from only at their last use. -/
def put_rvalue (s : Cache K V) (key : K) (val : V) : Cache K V :=
  let it_cache := map_find s.cache_map_ key
  let l1 := (⟨s.next_addr, key, val⟩ : Node K V) :: s.cache_list_
  let l2 := match it_cache with
    | some it => list_erase l1 it
    | none => l1
  let m2 := match it_cache with
    | some _ => map_erase s.cache_map_ key
    | none => s.cache_map_
  let m3 := map_assign m2 key (list_begin l2)
  let s3 := { s with cache_map_ := m3, cache_list_ := l2, next_addr := s.next_addr + 1 }
  if s3.cache_map_.length > s3.size_ then (del s3).2 else s3

/-- Method `LRUCache::poll` (cache.hpp 100-105). -/
def poll (s : Cache K V) : Option (Deref (K × V)) :=
  if s.cache_map_.length = 0 then none else some (list_back s.cache_list_)

/-- Method `LRUCache::get_size`. -/
def get_size (s : Cache K V) : Nat := s.cache_map_.length

/-- Method `LRUCache::exists(const KeyT&)`. -/
def «exists» (s : Cache K V) (key : K) : Bool := (map_find s.cache_map_ key).isSome

/-- Method `LRUCache::exists(KeyT&&)`. -/
def exists_rvalue (s : Cache K V) (key : K) : Bool := (map_find s.cache_map_ key).isSome

end LRUCache

namespace FIFOCache

variable {K V : Type} [DecidableEq K]

/-- Method `FIFOCache::del` (cache.hpp 159-170), with the same reading of `*last` as in
`LRUCache.del`. -/
def del (s : Cache K V) : Option (Deref (K × V)) × Cache K V :=
  if s.cache_map_.length = 0 then (none, s)
  else
    match s.cache_list_.getLast? with
    | none => (some Deref.dangling, s)
    | some last =>
      let key := last.first
      let m := map_erase s.cache_map_ key
      let l := s.cache_list_.dropLast
      (some (list_deref l last.addr), { s with cache_map_ := m, cache_list_ := l })

/-- Lines 151-156 (and 135-140) of cache.hpp: push to the front, index the new head, and
evict once when the index has outgrown the capacity. -/
def push_and_trim (s : Cache K V) (key : K) (val : V) : Cache K V :=
  let l := (⟨s.next_addr, key, val⟩ : Node K V) :: s.cache_list_
  let m := map_assign s.cache_map_ key (list_begin l)
  let s3 := { s with cache_map_ := m, cache_list_ := l, next_addr := s.next_addr + 1 }
  if s3.cache_map_.length > s3.size_ then (del s3).2 else s3

/-- Method `FIFOCache::put(const KeyT&, const ValueT&)` (cache.hpp 143-157). A comparison
made through an iterator without a live node (excluded by the invariant) counts as
"differs". -/
def put [DecidableEq V] (s : Cache K V) (key : K) (val : V) : Cache K V :=
  match map_find s.cache_map_ key with
  | some it =>
    if list_deref_second s.cache_list_ it ≠ Deref.value val then
      push_and_trim { s with cache_list_ := list_erase s.cache_list_ it,
                             cache_map_ := map_erase s.cache_map_ key } key val
    else if list_deref_second s.cache_list_ it = Deref.value val then s
    else push_and_trim s key val
  | none => push_and_trim s key val

/-- Method `FIFOCache::put(KeyT&&, ValueT&&)` (cache.hpp 127-141). -/
def put_rvalue [DecidableEq V] (s : Cache K V) (key : K) (val : V) : Cache K V :=
  match map_find s.cache_map_ key with
  | some it =>
    if list_deref_second s.cache_list_ it ≠ Deref.value val then
      push_and_trim { s with cache_list_ := list_erase s.cache_list_ it,
                             cache_map_ := map_erase s.cache_map_ key } key val
    else if list_deref_second s.cache_list_ it = Deref.value val then s
    else push_and_trim s key val
  | none => push_and_trim s key val

/-- Method `FIFOCache::poll` (cache.hpp 172-177). -/
def poll (s : Cache K V) : Option (Deref (K × V)) :=
  if s.cache_map_.length = 0 then none else some (list_back s.cache_list_)

/-- Method `FIFOCache::get_size`. -/
def get_size (s : Cache K V) : Nat := s.cache_map_.length

/-- Method `FIFOCache::exists(const KeyT&)`. -/
def «exists» (s : Cache K V) (key : K) : Bool := (map_find s.cache_map_ key).isSome

/-- Method `FIFOCache::exists(KeyT&&)`. -/
def exists_rvalue (s : Cache K V) (key : K) : Bool := (map_find s.cache_map_ key).isSome

end FIFOCache

/-- The two concrete classes deriving from `CacheBase`. -/
inductive Policy where
  | LRU
  | FIFO
deriving DecidableEq, Repr

/-- A call on the `CacheBase` interface. -/
inductive Op (K V : Type) where
  | put (key : K) (val : V)
  | put_rvalue (key : K) (val : V)
  | del
  | poll
  | «exists» (key : K)
  | exists_rvalue (key : K)
  | get_size
  | get_max_size
deriving DecidableEq, Repr

section dispatch

variable {K V : Type} [DecidableEq K] [DecidableEq V]

/-- State after one virtual call. -/
def step (p : Policy) (s : Cache K V) (op : Op K V) : Cache K V :=
  match p, op with
  | Policy.LRU, Op.put k v => LRUCache.put s k v
  | Policy.LRU, Op.put_rvalue k v => LRUCache.put_rvalue s k v
  | Policy.LRU, Op.del => (LRUCache.del s).2
  | Policy.FIFO, Op.put k v => FIFOCache.put s k v
  | Policy.FIFO, Op.put_rvalue k v => FIFOCache.put_rvalue s k v
  | Policy.FIFO, Op.del => (FIFOCache.del s).2
  | _, _ => s

/-- State after a sequence of calls, first call first. -/
def run (p : Policy) (s : Cache K V) (ops : List (Op K V)) : Cache K V :=
  ops.foldl (step p) s

/-- Dispatch of `get_size`. -/
def size_of (p : Policy) (s : Cache K V) : Nat :=
  match p with
  | Policy.LRU => LRUCache.get_size s
  | Policy.FIFO => FIFOCache.get_size s

/-- Dispatch of `exists`. -/
def exists_of (p : Policy) (s : Cache K V) (key : K) : Bool :=
  match p with
  | Policy.LRU => LRUCache.exists s key
  | Policy.FIFO => FIFOCache.exists s key

/-- Dispatch of `poll`. -/
def poll_of (p : Policy) (s : Cache K V) : Option (Deref (K × V)) :=
  match p with
  | Policy.LRU => LRUCache.poll s
  | Policy.FIFO => FIFOCache.poll s

/-- Dispatch of `del`. -/
def del_of (p : Policy) (s : Cache K V) : Option (Deref (K × V)) × Cache K V :=
  match p with
  | Policy.LRU => LRUCache.del s
  | Policy.FIFO => FIFOCache.del s

/-- Dispatch of `put`. -/
def put_of (p : Policy) (s : Cache K V) (key : K) (val : V) : Cache K V :=
  match p with
  | Policy.LRU => LRUCache.put s key val
  | Policy.FIFO => FIFOCache.put s key val

end dispatch

/-! ## Normal form of a put and the representation invariant -/

section normal_form

variable {K V : Type}

/-- The index that `cache_map_` holds for a list of nodes: each key with its node address. -/
def index_of (l : List (Node K V)) : List (K × Nat) :=
  l.map (fun n => (n.first, n.addr))

/-- Drop the tail node when the list is longer than the capacity. -/
def trim (c : Nat) (l : List (Node K V)) : List (Node K V) :=
  if l.length > c then l.dropLast else l

/-- State with the node list `l` and the index that belongs to it. -/
def with_list (s : Cache K V) (l : List (Node K V)) (a : Nat) : Cache K V :=
  { size_ := s.size_, cache_map_ := index_of l, cache_list_ := l, next_addr := a }

variable [DecidableEq K]

/-- List-level description of a put that is carried out: new head, old node of the key
removed, tail trimmed. -/
def put_front (s : Cache K V) (key : K) (val : V) : Cache K V :=
  with_list s
    (trim s.size_ ((⟨s.next_addr, key, val⟩ : Node K V) ::
      s.cache_list_.filter (fun n => decide (n.first ≠ key))))
    (s.next_addr + 1)

/-- Representation invariant tying `cache_map_` to `cache_list_`. -/
structure Inv (s : Cache K V) : Prop where
  map_eq : s.cache_map_ = index_of s.cache_list_
  keys_nodup : (s.cache_list_.map (fun n => n.first)).Nodup
  addrs_nodup : (s.cache_list_.map (fun n => n.addr)).Nodup
  addr_lt : ∀ n ∈ s.cache_list_, n.addr < s.next_addr
  bound : s.cache_list_.length ≤ s.size_

end normal_form

/-! ## The page registry (`core/page_store.cpp`) -/

/-- Modelled from the spec: the type `PageMap` of `core/page_store.hpp`, a mapping from
type-tag to a `Page`; here the entries in iteration order, each a tag with the address of
the page it owns. -/
abbrev PageMap := List (Nat × Nat)

/-- Modelled from the spec: the type `PageSet` of `core/page_store.hpp`, the auxiliary set
used to test tag membership. -/
abbrev PageSet := List Nat

/-- Effects of the registry on objects other than its own static members, in program order. -/
inductive Event where
  | finalize (page : Nat)
  | delete_page (page : Nat)
  | delete_map
  | delete_set
deriving DecidableEq, Repr

/-- The static members of `PageStore` as one thread sees them (page_store.cpp 24-28); a null
pointer is `none`. -/
structure PageStore where
  page_map_ : Option PageMap
  page_set_ : Option PageSet
  s_counter : Nat
  tid_ : Nat
  page_size_ : Nat
deriving DecidableEq, Repr

/-- What `init_page_map` takes from outside `page_store.cpp`: `Context::get_local_tid()`,
`Context::get_param`, and the extraction `str_stream >> page_size_` as a function of the
text and of the value held before. -/
structure Context where
  get_local_tid : Nat
  get_param : String → String
  extract : String → Nat → Nat

namespace PageStore

/-- The static initialisers (page_store.cpp 24-28): the state of a thread that has never
accessed the registry. -/
def initial : PageStore :=
  { page_map_ := none, page_set_ := none, s_counter := 0, tid_ := 0, page_size_ := 0 }

/-- The loop of `drop_all_pages` (page_store.cpp 39-42). -/
def finalize_loop : PageMap → List Event
  | [] => []
  | page_pair :: rest =>
    Event.finalize page_pair.2 :: Event.delete_page page_pair.2 :: finalize_loop rest

/-- Function `PageStore::drop_all_pages` (page_store.cpp 36-45). The result is `none` when
`page_set_->clear()` goes through a null pointer. -/
def drop_all_pages (s : PageStore) : Option (PageStore × List Event) :=
  match s.page_map_ with
  | none => some (s, [])
  | some m =>
    match s.page_set_ with
    | none => none
    | some _ => some ({ s with page_map_ := some [], page_set_ := some [] }, finalize_loop m)

/-- Function `PageStore::init_page_map` (page_store.cpp 47-57), `w` being the width of
`size_t`. -/
def init_page_map (w : Nat) (ctx : Context) (s : PageStore) : PageStore :=
  { page_map_ := (match s.page_map_ with
      | none => some []
      | some m => some m),
    page_set_ := (match s.page_set_ with
      | none => some []
      | some st => some st),
    s_counter := s.s_counter,
    tid_ := ctx.get_local_tid % 2 ^ w,
    page_size_ := ctx.extract (ctx.get_param "page_size") s.page_size_ % 2 ^ w }

/-- Function `PageStore::free_page_map` (page_store.cpp 59-71): `-1` stored in a `size_t` is
`2 ^ w - 1`. -/
def free_page_map (w : Nat) (s : PageStore) : PageStore × List Event :=
  ({ page_map_ := none, page_set_ := none, s_counter := 0, tid_ := 2 ^ w - 1,
     page_size_ := 2 ^ w - 1 },
   (match s.page_map_ with
     | some _ => [Event.delete_map]
     | none => []) ++
   (match s.page_set_ with
     | some _ => [Event.delete_set]
     | none => []))

/-- Function `PageStore::get_page_map` (page_store.cpp 73-76): the map the returned reference
designates, and the state; `none` when `*page_map_` goes through a null pointer. -/
def get_page_map (w : Nat) (ctx : Context) (s : PageStore) : Option (PageMap × PageStore) :=
  match (init_page_map w ctx s).page_map_ with
  | some m => some (m, init_page_map w ctx s)
  | none => none

/-- The callback registered as `finalize_all_objlists` (page_store.cpp 31-34). -/
def finalize_all_objlists (w : Nat) (s : PageStore) : Option (PageStore × List Event) :=
  match drop_all_pages s with
  | none => none
  | some (s1, ev1) => some ((free_page_map w s1).1, ev1 ++ (free_page_map w s1).2)

end PageStore

/-! ## Reference orderings -/

section reference

variable {K V : Type} [DecidableEq K]

/-- Recency order as the specification words it: given the puts most recent first, keep for
every key only its most recent put, in that order. -/
def last_puts : List (K × V) → List (K × V)
  | [] => []
  | p :: older => p :: (last_puts older).filter (fun q => decide (q.1 ≠ p.1))

/-- The calls `put(k₁, v₁), put(k₂, v₂), ...` for a list of pairs, in list order. -/
def puts (ps : List (K × V)) : List (Op K V) :=
  ps.map (fun p => Op.put p.1 p.2)

end reference

/-! ## Results of calls, and the two classes side by side -/

/-- What a call on the `CacheBase` interface returns. -/
inductive Out (K V : Type) where
  | void
  | entry (r : Option (Deref (K × V)))
  | bool (b : Bool)
  | size (n : Nat)
deriving DecidableEq, Repr

section results

variable {K V : Type} [DecidableEq K] [DecidableEq V]

/-- Value returned by one virtual call in state `s`. -/
def output (p : Policy) (s : Cache K V) (op : Op K V) : Out K V :=
  match p, op with
  | _, Op.put _ _ => Out.void
  | _, Op.put_rvalue _ _ => Out.void
  | Policy.LRU, Op.del => Out.entry (LRUCache.del s).1
  | Policy.FIFO, Op.del => Out.entry (FIFOCache.del s).1
  | Policy.LRU, Op.poll => Out.entry (LRUCache.poll s)
  | Policy.FIFO, Op.poll => Out.entry (FIFOCache.poll s)
  | Policy.LRU, Op.exists k => Out.bool (LRUCache.exists s k)
  | Policy.FIFO, Op.exists k => Out.bool (FIFOCache.exists s k)
  | Policy.LRU, Op.exists_rvalue k => Out.bool (LRUCache.exists_rvalue s k)
  | Policy.FIFO, Op.exists_rvalue k => Out.bool (FIFOCache.exists_rvalue s k)
  | Policy.LRU, Op.get_size => Out.size (LRUCache.get_size s)
  | Policy.FIFO, Op.get_size => Out.size (FIFOCache.get_size s)
  | _, Op.get_max_size => Out.size s.get_max_size

/-- Values returned by a sequence of calls, first call first. -/
def outputs (p : Policy) (s : Cache K V) : List (Op K V) → List (Out K V)
  | [] => []
  | op :: rest => output p s op :: outputs p (step p s op) rest

/-- The call is a put of a key with the very value the state stores for it. -/
def unchanged_reput (s : Cache K V) (op : Op K V) : Bool :=
  match op with
  | Op.put k v => decide ((k, v) ∈ s.entries)
  | Op.put_rvalue k v => decide ((k, v) ∈ s.entries)
  | _ => false

/-- No call of the sequence, made in turn from state `s`, is an unchanged re-put. -/
def no_unchanged_reput (s : Cache K V) : List (Op K V) → Bool
  | [] => true
  | op :: rest => !unchanged_reput s op && no_unchanged_reput (step Policy.LRU s op) rest

end results

/-! ## The statements of `put` one by one -/

section traces

variable {K V : Type} [DecidableEq K]

/-- The states after each statement of `LRUCache::put` (cache.hpp 75, 77, 78, 80, 82-84), the
two erasures being skipped when the key was not found. The last one is the state `put`
leaves. -/
def LRUCache.put_trace (s : Cache K V) (key : K) (val : V) : List (Cache K V) :=
  let it_cache := map_find s.cache_map_ key
  let s1 := { s with cache_list_ := (⟨s.next_addr, key, val⟩ : Node K V) :: s.cache_list_,
                     next_addr := s.next_addr + 1 }
  let s2 := match it_cache with
    | some it => { s1 with cache_list_ := list_erase s1.cache_list_ it }
    | none => s1
  let s3 := match it_cache with
    | some _ => { s2 with cache_map_ := map_erase s2.cache_map_ key }
    | none => s2
  let s4 := { s3 with cache_map_ := map_assign s3.cache_map_ key (list_begin s3.cache_list_) }
  let s5 := if s4.cache_map_.length > s4.size_ then (LRUCache.del s4).2 else s4
  [s1, s2, s3, s4, s5]

/-- The states after each statement of `FIFOCache::put` (cache.hpp 146, 147, 151, 152,
154-156); empty when the call returns at line 149. -/
def FIFOCache.put_trace [DecidableEq V] (s : Cache K V) (key : K) (val : V) :
    List (Cache K V) :=
  let tail := fun (s0 : Cache K V) =>
    let s1 := { s0 with cache_list_ := (⟨s0.next_addr, key, val⟩ : Node K V) :: s0.cache_list_,
                        next_addr := s0.next_addr + 1 }
    let s2 := { s1 with cache_map_ := map_assign s1.cache_map_ key (list_begin s1.cache_list_) }
    let s3 := if s2.cache_map_.length > s2.size_ then (FIFOCache.del s2).2 else s2
    [s1, s2, s3]
  match map_find s.cache_map_ key with
  | some it =>
    if list_deref_second s.cache_list_ it ≠ Deref.value val then
      let e1 := { s with cache_list_ := list_erase s.cache_list_ it }
      let e2 := { e1 with cache_map_ := map_erase e1.cache_map_ key }
      e1 :: e2 :: tail e2
    else if list_deref_second s.cache_list_ it = Deref.value val then []
    else tail s
  | none => tail s

end traces

/-! ## Insertion order -/

section insertion_order

variable {K V : Type} [DecidableEq K] [DecidableEq V]

/-- Insertion order as the specification words it, one put: a key that is present keeps its
place; a key that is not present enters at the head, stamped with the time `t` of the put,
and the oldest entry leaves when the capacity is exceeded. -/
def arrive (C : Nat) (q : List (Nat × K × V)) (t : Nat) (p : K × V) : List (Nat × K × V) :=
  if p.1 ∈ q.map (fun e => e.2.1) then q else ((t, p.1, p.2) :: q).take C

/-- Insertion order after the puts `ps`, the first of them made at time `t` on the queue
`q`. -/
def arrivals (C : Nat) : List (K × V) → Nat → List (Nat × K × V) → List (Nat × K × V)
  | [], _, q => q
  | p :: rest, t, q => arrivals C rest (t + 1) (arrive C q t p)

/-- No put of the sequence, made in turn from state `s`, gives a key that is present a
value other than the stored one. -/
def no_value_change (s : Cache K V) : List (K × V) → Bool
  | [] => true
  | p :: rest =>
    s.entries.all (fun q => !decide (q.1 = p.1) || decide (q.2 = p.2))
      && no_value_change (FIFOCache.put s p.1 p.2) rest

end insertion_order

/-! ## Sequences of registry calls, and several threads -/

/-- A call of one of the functions of `page_store.cpp`. -/
inductive RegOp where
  | get_page_map (ctx : Context)
  | init_page_map (ctx : Context)
  | drop_all_pages
  | free_page_map

/-- State after one registry call; `none` when the call goes through a null pointer. -/
def reg_step (w : Nat) (s : PageStore) (op : RegOp) : Option PageStore :=
  match op with
  | RegOp.get_page_map ctx => (PageStore.get_page_map w ctx s).map (fun r => r.2)
  | RegOp.init_page_map ctx => some (PageStore.init_page_map w ctx s)
  | RegOp.drop_all_pages => (PageStore.drop_all_pages s).map (fun r => r.1)
  | RegOp.free_page_map => some (PageStore.free_page_map w s).1

/-- State after a sequence of registry calls, first call first. -/
def reg_run (w : Nat) (s : PageStore) : List RegOp → Option PageStore
  | [] => some s
  | op :: rest => (reg_step w s op).bind (fun s1 => reg_run w s1 rest)

/-- The `thread_local` members of `PageStore` (page_store.cpp 24-27), one copy per thread. -/
structure ThreadLocal where
  page_map_ : Option PageMap
  page_set_ : Option PageSet
  s_counter : Nat
  tid_ : Nat
deriving DecidableEq, Repr

/-- The static members of `PageStore` in a process with several threads: the thread-local
ones per thread, and the one member declared without `thread_local`, `page_size_`
(page_store.cpp 28). -/
structure Process where
  locals : Nat → ThreadLocal
  page_size_ : Nat

namespace Process

/-- The process before any thread has accessed the registry (page_store.cpp 24-28). -/
def initial : Process :=
  { locals := fun _ => ⟨none, none, 0, 0⟩, page_size_ := 0 }

/-- The members as thread `i` sees them. -/
def view (P : Process) (i : Nat) : PageStore :=
  { page_map_ := (P.locals i).page_map_, page_set_ := (P.locals i).page_set_,
    s_counter := (P.locals i).s_counter, tid_ := (P.locals i).tid_,
    page_size_ := P.page_size_ }

/-- The process after thread `i` has left the members as in `s`. -/
def store (P : Process) (i : Nat) (s : PageStore) : Process :=
  { locals := fun j =>
      if j = i then ⟨s.page_map_, s.page_set_, s.s_counter, s.tid_⟩ else P.locals j,
    page_size_ := s.page_size_ }

/-- Thread `i` runs `PageStore::free_page_map`. -/
def free_page_map (w : Nat) (i : Nat) (P : Process) : Process :=
  P.store i (PageStore.free_page_map w (P.view i)).1

/-- Thread `i` runs `PageStore::init_page_map`. -/
def init_page_map (w : Nat) (ctx : Context) (i : Nat) (P : Process) : Process :=
  P.store i (PageStore.init_page_map w ctx (P.view i))

end Process

/-! ## Lemmas on lists of nodes -/

section node_lemmas

variable {K V : Type}

theorem list_deref_dropLast_of_getLast (l : List (Node K V)) (n : Node K V)
    (ha : (l.map (fun n => n.addr)).Nodup) (hl : l.getLast? = some n) :
    list_deref l.dropLast n.addr = Deref.dangling := by
  obtain ⟨t, rfl⟩ := List.getLast?_eq_some_iff.1 hl
  rw [List.dropLast_concat]
  have hne : ∀ m ∈ t, m.addr ≠ n.addr := by
    intro m hm h
    rw [List.map_append, List.nodup_append] at ha
    exact ha.2.2 (List.mem_map_of_mem _ hm) (by simp [h])
  have : t.find? (fun m => decide (m.addr = n.addr)) = none := by
    simp only [List.find?_eq_none]
    intro m hm
    simpa using hne m hm
  simp [list_deref, this]

theorem index_of_length (l : List (Node K V)) : (index_of l).length = l.length := by
  simp [index_of]

theorem inv_with_list (s : Cache K V) (l : List (Node K V)) (a : Nat)
    (hk : (l.map (fun n => n.first)).Nodup) (ha : (l.map (fun n => n.addr)).Nodup)
    (hlt : ∀ n ∈ l, n.addr < a) (hb : l.length ≤ s.size_) : Inv (with_list s l a) :=
  { map_eq := rfl, keys_nodup := hk, addrs_nodup := ha, addr_lt := hlt, bound := hb }

theorem with_list_self (s : Cache K V) (h : Inv s) :
    with_list s s.cache_list_ s.next_addr = s := by
  cases s
  simp only [with_list]
  simp only [Cache.mk.injEq, true_and, and_true]
  exact h.map_eq.symm

theorem trim_nodup (c : Nat) (l : List (Node K V)) {β : Type} (f : Node K V → β)
    (h : (l.map f).Nodup) : ((trim c l).map f).Nodup := by
  unfold trim
  split
  · exact ((List.dropLast_sublist l).map f).nodup h
  · exact h

theorem trim_subset (c : Nat) (l : List (Node K V)) : ∀ n ∈ trim c l, n ∈ l := by
  intro n hn
  unfold trim at hn
  split at hn
  · exact (List.dropLast_sublist l).subset hn
  · exact hn

theorem trim_length_le (c : Nat) (l : List (Node K V)) (h : l.length ≤ c + 1) :
    (trim c l).length ≤ c := by
  unfold trim
  split
  · simp; omega
  · omega

theorem trim_eq_take (c : Nat) (l : List (Node K V)) (h : l.length ≤ c + 1) :
    trim c l = l.take c := by
  unfold trim
  split
  · rw [List.dropLast_eq_take]
    congr 1
    omega
  · rw [List.take_of_length_le]
    omega

theorem list_deref_of_mem (l : List (Node K V)) (n : Node K V)
    (ha : (l.map (fun n => n.addr)).Nodup) (hn : n ∈ l) :
    list_deref l n.addr = Deref.value (n.first, n.second) := by
  have hsome : (l.find? (fun m => decide (m.addr = n.addr))).isSome = true := by
    rw [List.find?_isSome]
    exact ⟨n, hn, by simp⟩
  obtain ⟨m, hm⟩ := Option.isSome_iff_exists.1 hsome
  have hma : m.addr = n.addr := by simpa using List.find?_some hm
  have hmn : m = n := List.inj_on_of_nodup_map ha (List.mem_of_find?_eq_some hm) hn hma
  simp [list_deref, hm, hmn]

theorem mem_entries_iff (s : Cache K V) (h : Inv s) (n : Node K V) (hn : n ∈ s.cache_list_)
    (val : V) : (n.first, val) ∈ s.entries ↔ n.second = val := by
  constructor
  · intro hmem
    simp only [Cache.entries, List.mem_map, Prod.mk.injEq] at hmem
    obtain ⟨m, hm, hk, hv⟩ := hmem
    have : m = n := List.inj_on_of_nodup_map h.keys_nodup hm hn hk
    rw [← this]
    exact hv
  · intro hv
    simp only [Cache.entries, List.mem_map, Prod.mk.injEq]
    exact ⟨n, hn, rfl, hv⟩

theorem inv_mk_empty (C : Nat) : Inv (Cache.mk_empty K V C) :=
  { map_eq := rfl, keys_nodup := List.nodup_nil, addrs_nodup := List.nodup_nil,
    addr_lt := (fun _ hn => absurd hn (List.not_mem_nil _)), bound := Nat.zero_le _ }

theorem mem_entries_key (s : Cache K V) (k : K) (v : V) (h : (k, v) ∈ s.entries) :
    ∃ n ∈ s.cache_list_, n.first = k := by
  simp only [Cache.entries, List.mem_map, Prod.mk.injEq] at h
  obtain ⟨n, hn, hk, _⟩ := h
  exact ⟨n, hn, hk⟩

theorem mem_entries_unique (s : Cache K V) (h : Inv s) (key : K) (val v' : V)
    (hm : (key, val) ∈ s.entries) : (key, v') ∈ s.entries ↔ (1 ≤ s.size_ ∧ v' = val) := by
  obtain ⟨n, hn, hnk⟩ := mem_entries_key s key val hm
  have hpos : 1 ≤ s.size_ := by
    have := h.bound
    have := List.length_pos_of_mem hn
    omega
  have h1 := mem_entries_iff s h n hn val
  have h2 := mem_entries_iff s h n hn v'
  rw [hnk] at h1 h2
  have hv : n.second = val := h1.1 hm
  rw [h2, hv]
  constructor
  · intro he; exact ⟨hpos, he.symm⟩
  · rintro ⟨_, rfl⟩; rfl

theorem list_erase_length_le (l : List (Node K V)) (it : Nat) :
    (list_erase l it).length ≤ l.length :=
  List.length_filter_le _ _

theorem entries_with_list (s : Cache K V) (l : List (Node K V)) (a : Nat) :
    (with_list s l a).entries = l.map (fun n => (n.first, n.second)) := rfl

theorem size_of_eq_length (p : Policy) (s : Cache K V) (h : Inv s) :
    size_of p s = s.cache_list_.length := by
  have : size_of p s = s.cache_map_.length := by cases p <;> rfl
  rw [this, h.map_eq, index_of_length]

theorem poll_eq_last_entry (s : Cache K V) (h : Inv s) :
    LRUCache.poll s = (s.entries.getLast?).map (fun e => Deref.value e) := by
  unfold LRUCache.poll list_back Cache.entries
  rw [h.map_eq, index_of_length, List.getLast?_map]
  cases hl : s.cache_list_ with
  | nil => rfl
  | cons a t =>
    obtain ⟨n, hn⟩ := Option.isSome_iff_exists.1
      (show ((a :: t).getLast?).isSome = true by simp)
    simp [hn]

end node_lemmas

/-! ## Container lemmas -/

section container_lemmas

variable {K V : Type} [DecidableEq K]

theorem map_find_index_of (l : List (Node K V)) (k : K) :
    map_find (index_of l) k
      = (l.find? (fun n => decide (n.first = k))).map (fun n => n.addr) := by
  simp [map_find, index_of, List.find?_map, Function.comp_def]

theorem map_find_isSome_iff (l : List (Node K V)) (k : K) :
    (map_find (index_of l) k).isSome = true ↔ ∃ n ∈ l, n.first = k := by
  rw [map_find_index_of]
  simp [List.find?_isSome]

theorem map_find_eq_none_iff (l : List (Node K V)) (k : K) :
    map_find (index_of l) k = none ↔ ∀ n ∈ l, n.first ≠ k := by
  rw [map_find_index_of]
  simp

theorem map_erase_index_of (l : List (Node K V)) (k : K) :
    map_erase (index_of l) k = index_of (l.filter (fun n => decide (n.first ≠ k))) := by
  simp [map_erase, index_of, List.filter_map, Function.comp_def]

theorem map_assign_fresh (l : List (Node K V)) (k : K) (it : Nat)
    (h : ∀ n ∈ l, n.first ≠ k) :
    map_assign (index_of l) k it = (k, it) :: index_of l := by
  have hn := (map_find_eq_none_iff l k).2 h
  simp [map_assign, hn]

theorem filter_key_of_fresh (l : List (Node K V)) (k : K) (h : ∀ n ∈ l, n.first ≠ k) :
    l.filter (fun n => decide (n.first ≠ k)) = l := by
  apply List.filter_eq_self.2
  intro n hn
  simpa using h n hn

/-- Erasing through the iterator found for a key removes exactly the node with that key. -/
theorem list_erase_eq_filter_key (l : List (Node K V)) (k : K) (n : Node K V)
    (hk : (l.map (fun n => n.first)).Nodup) (ha : (l.map (fun n => n.addr)).Nodup)
    (hn : n ∈ l) (hnk : n.first = k) :
    list_erase l n.addr = l.filter (fun m => decide (m.first ≠ k)) := by
  unfold list_erase
  apply List.filter_congr
  intro x hx
  have h1 : x.addr = n.addr → x = n := fun h => List.inj_on_of_nodup_map ha hx hn h
  have h2 : x.first = n.first → x = n := fun h => List.inj_on_of_nodup_map hk hx hn h
  by_cases hxa : x.addr = n.addr
  · have := h1 hxa
    subst this
    simp [hnk]
  · have hxk : x.first ≠ k := by
      intro h
      apply hxa
      rw [h2 (h.trans hnk.symm)]
    simp [hxa, hxk]

theorem index_of_dropLast_of_getLast (l : List (Node K V)) (n : Node K V)
    (hk : (l.map (fun n => n.first)).Nodup) (hl : l.getLast? = some n) :
    map_erase (index_of l) n.first = index_of l.dropLast := by
  obtain ⟨t, rfl⟩ := List.getLast?_eq_some_iff.1 hl
  rw [map_erase_index_of]
  congr 1
  rw [List.dropLast_concat, List.filter_append]
  have hne : ∀ m ∈ t, m.first ≠ n.first := by
    intro m hm h
    rw [List.map_append, List.nodup_append] at hk
    exact hk.2.2 (List.mem_map_of_mem _ hm) (by simp [h])
  rw [filter_key_of_fresh t n.first hne]
  simp

end container_lemmas

/-! ## What `del` and `put` do on states satisfying the invariant -/

section cache_lemmas

variable {K V : Type} [DecidableEq K]

theorem FIFOCache.del_eq_lru (s : Cache K V) : FIFOCache.del s = LRUCache.del s := rfl

theorem del_with_list_concat (s : Cache K V) (t : List (Node K V)) (n : Node K V) (a : Nat)
    (hk : ((t ++ [n]).map (fun n => n.first)).Nodup)
    (ha : ((t ++ [n]).map (fun n => n.addr)).Nodup) :
    LRUCache.del (with_list s (t ++ [n]) a) = (some Deref.dangling, with_list s t a) := by
  have hl : (t ++ [n]).getLast? = some n := List.getLast?_concat t
  have h1 := index_of_dropLast_of_getLast (t ++ [n]) n hk hl
  have h2 := list_deref_dropLast_of_getLast (t ++ [n]) n ha hl
  have hlen : ¬ (index_of (t ++ [n])).length = 0 := by simp [index_of]
  simp only [LRUCache.del, with_list, hlen, if_false, hl, h1, h2]
  simp

theorem del_with_list_nil (s : Cache K V) (a : Nat) :
    LRUCache.del (with_list s [] a) = (none, with_list s [] a) := by
  simp [LRUCache.del, with_list, index_of]

theorem trim_with_list (s : Cache K V) (l : List (Node K V)) (a : Nat)
    (hk : (l.map (fun n => n.first)).Nodup) (ha : (l.map (fun n => n.addr)).Nodup) :
    (if (with_list s l a).cache_map_.length > (with_list s l a).size_
      then (LRUCache.del (with_list s l a)).2 else with_list s l a)
      = with_list s (trim s.size_ l) a := by
  have hlen : (with_list s l a).cache_map_.length = l.length := by simp [with_list, index_of]
  have hsz : (with_list s l a).size_ = s.size_ := rfl
  rw [hlen, hsz]
  unfold trim
  by_cases h : l.length > s.size_
  · rw [if_pos h, if_pos h]
    rcases List.eq_nil_or_concat l with hnil | ⟨t, n, rfl⟩
    · subst hnil; simp at h
    · rw [List.concat_eq_append] at hk ha ⊢
      rw [del_with_list_concat s t n a hk ha]
      simp
  · rw [if_neg h, if_neg h]

theorem front_list_nodup (s : Cache K V) (h : Inv s) (key : K) (val : V) :
    let l := (⟨s.next_addr, key, val⟩ : Node K V) ::
      s.cache_list_.filter (fun n => decide (n.first ≠ key))
    (l.map (fun n => n.first)).Nodup ∧ (l.map (fun n => n.addr)).Nodup ∧
      ∀ n ∈ l, n.addr < s.next_addr + 1 := by
  intro l
  have hsub : (s.cache_list_.filter (fun n => decide (n.first ≠ key))).Sublist s.cache_list_ :=
    List.filter_sublist _
  refine ⟨?_, ?_, ?_⟩
  · simp only [l, List.map_cons, List.nodup_cons]
    refine ⟨?_, (hsub.map _).nodup h.keys_nodup⟩
    simp [List.mem_map, List.mem_filter]
  · simp only [l, List.map_cons, List.nodup_cons]
    refine ⟨?_, (hsub.map _).nodup h.addrs_nodup⟩
    simp only [List.mem_map, List.mem_filter, not_exists, not_and]
    intro n hn hna
    have := h.addr_lt n hn.1
    omega
  · intro n hn
    simp only [l, List.mem_cons, List.mem_filter] at hn
    rcases hn with rfl | hn
    · simp
    · have := h.addr_lt n hn.1
      omega

theorem inv_put_front (s : Cache K V) (h : Inv s) (key : K) (val : V) :
    Inv (put_front s key val) := by
  obtain ⟨hk, ha, hlt⟩ := front_list_nodup s h key val
  unfold put_front
  apply inv_with_list
  · exact trim_nodup _ _ _ hk
  · exact trim_nodup _ _ _ ha
  · intro n hn
    exact hlt n (trim_subset _ _ n hn)
  · apply trim_length_le
    have := List.length_filter_le (fun n : Node K V => decide (n.first ≠ key)) s.cache_list_
    have := h.bound
    simp only [List.length_cons]
    omega

theorem LRUCache.put_eq_put_front (s : Cache K V) (h : Inv s) (key : K) (val : V) :
    LRUCache.put s key val = put_front s key val := by
  obtain ⟨hk, ha, _⟩ := front_list_nodup s h key val
  have hfr : ∀ m ∈ s.cache_list_.filter (fun n => decide (n.first ≠ key)), m.first ≠ key := by
    intro m hm
    simpa using (List.mem_filter.1 hm).2
  unfold put_front
  rw [← trim_with_list s _ _ hk ha]
  unfold LRUCache.put
  rw [h.map_eq]
  cases hf : map_find (index_of s.cache_list_) key with
  | none =>
    have hfresh := (map_find_eq_none_iff s.cache_list_ key).1 hf
    have hfl := filter_key_of_fresh s.cache_list_ key hfresh
    simp only [hfl] at hfr ⊢
    simp only [list_begin, map_assign_fresh s.cache_list_ key s.next_addr hfresh]
    rfl
  | some it =>
    rw [map_find_index_of] at hf
    obtain ⟨n, hn, rfl⟩ := Option.map_eq_some'.1 hf
    have hmem := List.mem_of_find?_eq_some hn
    have hnk : n.first = key := by simpa using List.find?_some hn
    have hne : s.next_addr ≠ n.addr := by
      have := h.addr_lt n hmem
      omega
    have he : list_erase ((⟨s.next_addr, key, val⟩ : Node K V) :: s.cache_list_) n.addr
        = (⟨s.next_addr, key, val⟩ : Node K V) ::
          s.cache_list_.filter (fun m => decide (m.first ≠ key)) := by
      rw [← list_erase_eq_filter_key s.cache_list_ key n h.keys_nodup h.addrs_nodup hmem hnk]
      simp [list_erase, List.filter_cons, hne]
    simp only [he, map_erase_index_of, list_begin, map_assign_fresh _ key s.next_addr hfr]
    rfl

theorem lru_put_rvalue_eq (s : Cache K V) (key : K) (val : V) :
    LRUCache.put_rvalue s key val = LRUCache.put s key val := rfl

theorem FIFOCache.push_and_trim_eq (s : Cache K V) (key : K) (val : V)
    (hmap : s.cache_map_ = index_of s.cache_list_)
    (hfresh : ∀ m ∈ s.cache_list_, m.first ≠ key)
    (hk : (((⟨s.next_addr, key, val⟩ : Node K V) :: s.cache_list_).map
      (fun n => n.first)).Nodup)
    (ha : (((⟨s.next_addr, key, val⟩ : Node K V) :: s.cache_list_).map
      (fun n => n.addr)).Nodup) :
    FIFOCache.push_and_trim s key val
      = with_list s (trim s.size_ ((⟨s.next_addr, key, val⟩ : Node K V) :: s.cache_list_))
          (s.next_addr + 1) := by
  rw [← trim_with_list s _ _ hk ha]
  unfold FIFOCache.push_and_trim
  rw [hmap]
  simp only [list_begin, map_assign_fresh s.cache_list_ key s.next_addr hfresh]
  rfl

theorem FIFOCache.put_eq (s : Cache K V) [DecidableEq V] (h : Inv s) (key : K) (val : V) :
    FIFOCache.put s key val = if (key, val) ∈ s.entries then s else put_front s key val := by
  obtain ⟨hk, ha, _⟩ := front_list_nodup s h key val
  unfold FIFOCache.put
  rw [h.map_eq]
  cases hf : map_find (index_of s.cache_list_) key with
  | none =>
    have hfresh := (map_find_eq_none_iff s.cache_list_ key).1 hf
    have hfl := filter_key_of_fresh s.cache_list_ key hfresh
    have hnot : (key, val) ∉ s.entries := by
      simp only [Cache.entries, List.mem_map, Prod.mk.injEq, not_exists, not_and]
      intro m hm hmk
      exact absurd hmk (hfresh m hm)
    simp only [hfl] at hk ha
    simp only [if_neg hnot]
    rw [FIFOCache.push_and_trim_eq s key val h.map_eq hfresh hk ha]
    simp only [put_front, hfl]
  | some it =>
    rw [map_find_index_of] at hf
    obtain ⟨n, hn, rfl⟩ := Option.map_eq_some'.1 hf
    have hmem := List.mem_of_find?_eq_some hn
    have hnk : n.first = key := by simpa using List.find?_some hn
    have hd : list_deref_second s.cache_list_ n.addr = Deref.value n.second := by
      simp [list_deref_second, list_deref_of_mem s.cache_list_ n h.addrs_nodup hmem]
    have hiff := mem_entries_iff s h n hmem val
    rw [hnk] at hiff
    simp only [hd]
    by_cases hv : n.second = val
    · have hin : (key, val) ∈ s.entries := hiff.2 hv
      simp [hv, hin]
    · have hnin : (key, val) ∉ s.entries := fun hc => hv (hiff.1 hc)
      have hne : (Deref.value n.second : Deref V) ≠ Deref.value val := by
        intro hc
        exact hv (Deref.value.inj hc)
      simp only [if_pos hne, if_neg hnin]
      have he := list_erase_eq_filter_key s.cache_list_ key n h.keys_nodup h.addrs_nodup
        hmem hnk
      have hfr : ∀ m ∈ s.cache_list_.filter (fun n => decide (n.first ≠ key)),
          m.first ≠ key := by
        intro m hm
        simpa using (List.mem_filter.1 hm).2
      rw [FIFOCache.push_and_trim_eq _ key val]
      · simp only [put_front, he]
        rfl
      · simp only [he, map_erase_index_of]
      · simpa only [he] using hfr
      · simpa only [he] using hk
      · simpa only [he] using ha

theorem fifo_put_rvalue_eq (s : Cache K V) [DecidableEq V] (key : K) (val : V) :
    FIFOCache.put_rvalue s key val = FIFOCache.put s key val := rfl

theorem LRUCache.del_of_nil (s : Cache K V) (h : Inv s) (hl : s.cache_list_ = []) :
    LRUCache.del s = (none, s) := by
  have hm : s.cache_map_ = [] := by rw [h.map_eq, hl]; rfl
  simp [LRUCache.del, hm]

theorem LRUCache.del_of_concat (s : Cache K V) (h : Inv s) (t : List (Node K V))
    (n : Node K V) (hl : s.cache_list_ = t ++ [n]) :
    LRUCache.del s = (some Deref.dangling, with_list s t s.next_addr) := by
  have hk := h.keys_nodup
  have ha := h.addrs_nodup
  rw [hl] at hk ha
  have := del_with_list_concat s t n s.next_addr hk ha
  rw [← hl, with_list_self s h] at this
  exact this

theorem inv_del (s : Cache K V) (h : Inv s) : Inv (LRUCache.del s).2 := by
  rcases List.eq_nil_or_concat s.cache_list_ with hnil | ⟨t, n, hl⟩
  · rw [LRUCache.del_of_nil s h hnil]
    exact h
  · rw [List.concat_eq_append] at hl
    rw [LRUCache.del_of_concat s h t n hl]
    have hsub : t.Sublist s.cache_list_ := by
      rw [hl]
      exact List.sublist_append_left t [n]
    apply inv_with_list
    · exact (hsub.map _).nodup h.keys_nodup
    · exact (hsub.map _).nodup h.addrs_nodup
    · intro m hm
      exact h.addr_lt m (hsub.subset hm)
    · have := h.bound
      have := hsub.length_le
      omega

theorem inv_fifo_put (s : Cache K V) [DecidableEq V] (h : Inv s) (key : K) (val : V) :
    Inv (FIFOCache.put s key val) := by
  rw [FIFOCache.put_eq s h]
  split
  · exact h
  · exact inv_put_front s h key val

theorem inv_step [DecidableEq V] (p : Policy) (s : Cache K V) (h : Inv s) (op : Op K V) :
    Inv (step p s op) := by
  cases p <;> cases op <;> simp only [step] <;> try exact h
  · rw [LRUCache.put_eq_put_front s h]; exact inv_put_front s h _ _
  · rw [lru_put_rvalue_eq, LRUCache.put_eq_put_front s h]
    exact inv_put_front s h _ _
  · exact inv_del s h
  · exact inv_fifo_put s h _ _
  · rw [fifo_put_rvalue_eq]; exact inv_fifo_put s h _ _
  · rw [FIFOCache.del_eq_lru]; exact inv_del s h

theorem inv_run [DecidableEq V] (p : Policy) (ops : List (Op K V)) :
    ∀ s : Cache K V, Inv s → Inv (run p s ops) := by
  induction ops with
  | nil => intro s h; exact h
  | cons op rest ih =>
    intro s h
    exact ih (step p s op) (inv_step p s h op)

theorem LRUCache.del_size (s : Cache K V) : (LRUCache.del s).2.size_ = s.size_ := by
  unfold LRUCache.del
  split
  · rfl
  · split <;> rfl

theorem lru_put_size (s : Cache K V) (key : K) (val : V) :
    (LRUCache.put s key val).size_ = s.size_ := by
  unfold LRUCache.put
  simp only []
  split
  · rw [LRUCache.del_size]
  · rfl

theorem FIFOCache.push_and_trim_size (s : Cache K V) (key : K) (val : V) :
    (FIFOCache.push_and_trim s key val).size_ = s.size_ := by
  unfold FIFOCache.push_and_trim
  simp only []
  split
  · rw [FIFOCache.del_eq_lru, LRUCache.del_size]
  · rfl

theorem fifo_put_size [DecidableEq V] (s : Cache K V) (key : K) (val : V) :
    (FIFOCache.put s key val).size_ = s.size_ := by
  unfold FIFOCache.put
  split
  · split
    · rw [FIFOCache.push_and_trim_size]
    · split
      · rfl
      · rw [FIFOCache.push_and_trim_size]
  · rw [FIFOCache.push_and_trim_size]

theorem size_step [DecidableEq V] (p : Policy) (s : Cache K V) (op : Op K V) :
    (step p s op).size_ = s.size_ := by
  cases p <;> cases op <;> simp only [step]
  · exact lru_put_size s _ _
  · exact lru_put_size s _ _
  · exact LRUCache.del_size s
  · exact fifo_put_size s _ _
  · exact fifo_put_size s _ _
  · exact LRUCache.del_size s

theorem size_run [DecidableEq V] (p : Policy) (ops : List (Op K V)) :
    ∀ s : Cache K V, (run p s ops).size_ = s.size_ := by
  induction ops with
  | nil => intro s; rfl
  | cons op rest ih =>
    intro s
    exact (ih (step p s op)).trans (size_step p s op)

end cache_lemmas

/-! ## Recency order -/

section recency

variable {K V : Type} [DecidableEq K]

theorem last_puts_sublist (l : List (K × V)) : (last_puts l).Sublist l := by
  induction l with
  | nil => exact List.Sublist.refl _
  | cons p r ih =>
    simp only [last_puts]
    exact ((List.filter_sublist _).trans ih).cons₂ p

theorem last_puts_keys_nodup (l : List (K × V)) : ((last_puts l).map (fun q => q.1)).Nodup := by
  induction l with
  | nil => exact List.nodup_nil
  | cons p r ih =>
    simp only [last_puts, List.map_cons, List.nodup_cons]
    refine ⟨?_, ((List.filter_sublist _).map _).nodup ih⟩
    simp [List.mem_map, List.mem_filter]

theorem mem_last_puts_iff (l : List (K × V)) (k : K) (v : V) :
    (k, v) ∈ last_puts l ↔ l.find? (fun q => decide (q.1 = k)) = some (k, v) := by
  induction l with
  | nil => simp [last_puts]
  | cons p r ih =>
    obtain ⟨pk, pv⟩ := p
    by_cases h : pk = k
    · subst h
      simp only [last_puts, List.mem_cons, List.mem_filter, List.find?_cons, Prod.mk.injEq,
        true_and, decide_True, ne_eq, not_true_eq_false, decide_False, and_false, or_false,
        Option.some.injEq, Bool.false_eq_true]
      exact eq_comm
    · have h2 : ¬ k = pk := fun hc => h hc.symm
      simp [last_puts, List.mem_filter, List.find?_cons, h, h2, ih]

/-- Filtering out one key and cutting to `n` entries may be done after cutting to `n + 1`
entries, when the keys are pairwise distinct. -/
theorem take_filter_take (k : K) (l : List (K × V)) (hl : (l.map (fun q => q.1)).Nodup) :
    ∀ n : Nat, ((l.take (n + 1)).filter (fun q => decide (q.1 ≠ k))).take n
      = (l.filter (fun q => decide (q.1 ≠ k))).take n := by
  induction l with
  | nil => intro n; simp
  | cons a t ih =>
    intro n
    rw [List.map_cons, List.nodup_cons] at hl
    by_cases h : a.1 = k
    · have hfr : ∀ q ∈ t, q.1 ≠ k := by
        intro q hq hc
        exact hl.1 (by rw [h, ← hc]; exact List.mem_map_of_mem _ hq)
      have h1 : t.filter (fun q => decide (q.1 ≠ k)) = t :=
        List.filter_eq_self.2 (fun q hq => by simpa using hfr q hq)
      have h2 : (t.take n).filter (fun q => decide (q.1 ≠ k)) = t.take n :=
        List.filter_eq_self.2 (fun q hq => by simpa using hfr q (List.mem_of_mem_take hq))
      simp only [decide_not] at h1 h2 ⊢
      simp [List.take_succ_cons, List.filter_cons, h, h1, h2, List.take_take]
    · cases n with
      | zero => simp
      | succ m =>
        have := ih hl.2 m
        simp only [decide_not] at this ⊢
        simp [List.take_succ_cons, List.filter_cons, h, this]

theorem entries_put_front (s : Cache K V) (h : Inv s) (key : K) (val : V) :
    (put_front s key val).entries
      = ((key, val) :: s.entries.filter (fun q => decide (q.1 ≠ key))).take s.size_ := by
  have hlen : ((⟨s.next_addr, key, val⟩ : Node K V) ::
      s.cache_list_.filter (fun n => decide (n.first ≠ key))).length ≤ s.size_ + 1 := by
    have := List.length_filter_le (fun n : Node K V => decide (n.first ≠ key)) s.cache_list_
    have := h.bound
    simp only [List.length_cons]
    omega
  simp only [put_front, with_list, Cache.entries, trim_eq_take _ _ hlen, List.map_take,
    List.map_cons, List.filter_map, Function.comp_def]

theorem lru_run_puts_entries [DecidableEq V] (C : Nat) (ps : List (K × V)) :
    (run Policy.LRU (Cache.mk_empty K V C) (puts ps)).entries
      = (last_puts ps.reverse).take C := by
  induction ps using List.reverseRecOn with
  | nil => simp [run, puts, Cache.entries, Cache.mk_empty, last_puts]
  | append_singleton ps p ih =>
    have hinv := inv_run Policy.LRU (puts ps) (Cache.mk_empty K V C) (inv_mk_empty C)
    have hsz := size_run Policy.LRU (puts ps) (Cache.mk_empty K V C)
    have hrun : run Policy.LRU (Cache.mk_empty K V C) (puts (ps ++ [p]))
        = LRUCache.put (run Policy.LRU (Cache.mk_empty K V C) (puts ps)) p.1 p.2 := by
      simp [run, puts, List.foldl_append, step]
    rw [hrun, LRUCache.put_eq_put_front _ hinv, entries_put_front _ hinv, ih, hsz]
    simp only [List.reverse_append, List.reverse_singleton, List.singleton_append, last_puts,
      Cache.mk_empty]
    cases C with
    | zero => simp
    | succ c =>
      simp only [List.take_succ_cons]
      rw [take_filter_take p.1 _ (last_puts_keys_nodup _) c]

end recency

/-! ## Puts on a key that is present -/

section present

variable {K V : Type} [DecidableEq K]

theorem filter_length_of_mem (l : List (Node K V)) (key : K)
    (hk : (l.map (fun n => n.first)).Nodup) (hm : ∃ n ∈ l, n.first = key) :
    (l.filter (fun n => decide (n.first ≠ key))).length + 1 = l.length := by
  induction l with
  | nil => obtain ⟨n, hn, _⟩ := hm; cases hn
  | cons a t ih =>
    rw [List.map_cons, List.nodup_cons] at hk
    by_cases h : a.first = key
    · have hfr : ∀ m ∈ t, m.first ≠ key := by
        intro m hmt hc
        exact hk.1 (by rw [h, ← hc]; exact List.mem_map_of_mem _ hmt)
      have := filter_key_of_fresh t key hfr
      simp only [decide_not] at this
      simp [List.filter_cons, h, this]
    · obtain ⟨n, hn, hnk⟩ := hm
      have hnt : n ∈ t := by
        rcases List.mem_cons.1 hn with rfl | hnt
        · exact absurd hnk h
        · exact hnt
      have := ih hk.2 ⟨n, hnt, hnk⟩
      simp only [decide_not] at this
      simp [List.filter_cons, h, this]

/-- A put that is carried out on a present key trims nothing. -/
theorem put_front_of_present (s : Cache K V) (h : Inv s) (key : K) (val : V)
    (hm : ∃ n ∈ s.cache_list_, n.first = key) :
    put_front s key val
      = with_list s ((⟨s.next_addr, key, val⟩ : Node K V) ::
          s.cache_list_.filter (fun n => decide (n.first ≠ key))) (s.next_addr + 1) := by
  have hlen := filter_length_of_mem s.cache_list_ key h.keys_nodup hm
  have hb := h.bound
  unfold put_front trim
  rw [if_neg]
  simp only [List.length_cons]
  omega

theorem entries_filter (l : List (Node K V)) (key : K) :
    (l.filter (fun n => decide (n.first ≠ key))).map (fun n => (n.first, n.second))
      = (l.map (fun n => (n.first, n.second))).filter (fun q => decide (q.1 ≠ key)) := by
  simp [List.filter_map, Function.comp_def]

theorem exists_iff_mem_entries (s : Cache K V) (h : Inv s) (k : K) :
    (map_find s.cache_map_ k).isSome = true ↔ ∃ v, (k, v) ∈ s.entries := by
  rw [h.map_eq, map_find_isSome_iff]
  constructor
  · rintro ⟨n, hn, rfl⟩
    exact ⟨n.second, List.mem_map_of_mem (fun n => (n.first, n.second)) hn⟩
  · rintro ⟨v, hv⟩
    exact mem_entries_key s k v hv

theorem mem_entries_put_front_key (s : Cache K V) (h : Inv s) (key : K) (val v' : V) :
    (key, v') ∈ (put_front s key val).entries ↔ (1 ≤ s.size_ ∧ v' = val) := by
  rw [entries_put_front s h]
  cases hC : s.size_ with
  | zero => simp
  | succ c =>
    rw [List.take_succ_cons, List.mem_cons]
    have hnot : (key, v') ∉ (s.entries.filter (fun q => decide (q.1 ≠ key))).take c := by
      intro hc
      have := (List.mem_filter.1 (List.mem_of_mem_take hc)).2
      simp at this
    constructor
    · rintro (heq | hmem)
      · exact ⟨Nat.succ_le_succ (Nat.zero_le c), (Prod.mk.inj heq).2⟩
      · exact absurd hmem hnot
    · rintro ⟨_, rfl⟩
      exact Or.inl rfl

theorem output_fifo_eq_lru (s : Cache K V) (op : Op K V) :
    output Policy.FIFO s op = output Policy.LRU s op := by
  cases op <;> rfl

theorem exists_of_iff_node (p : Policy) (s : Cache K V) (h : Inv s) (k : K) :
    exists_of p s k = true ↔ ∃ n ∈ s.cache_list_, n.first = k := by
  have : exists_of p s k = (map_find s.cache_map_ k).isSome := by cases p <;> rfl
  rw [this, h.map_eq, map_find_isSome_iff]

theorem arrive_subset (C : Nat) (q : List (Nat × K × V)) (t : Nat) (p : K × V) :
    ∀ e ∈ arrive C q t p, e = (t, p.1, p.2) ∨ e ∈ q := by
  intro e he
  unfold arrive at he
  split at he
  · exact Or.inr he
  · exact List.mem_cons.1 (List.mem_of_mem_take he)

theorem arrive_pairwise (C : Nat) (q : List (Nat × K × V)) (t : Nat) (p : K × V)
    (hlt : ∀ e ∈ q, e.1 < t) (hp : (q.map (fun e => e.1)).Pairwise (fun a b => a > b)) :
    ((arrive C q t p).map (fun e => e.1)).Pairwise (fun a b => a > b) := by
  unfold arrive
  split
  · exact hp
  · rw [List.map_take]
    apply List.Pairwise.take
    rw [List.map_cons, List.pairwise_cons]
    refine ⟨?_, hp⟩
    intro a ha
    obtain ⟨e, he, rfl⟩ := List.mem_map.1 ha
    exact hlt e he

theorem arrivals_stamps (C : Nat) (rest : List (K × V)) :
    ∀ (done : List (K × V)) (q : List (Nat × K × V)),
      (∀ e ∈ q, e.1 < done.length ∧ done[e.1]? = some e.2) →
      (q.map (fun e => e.1)).Pairwise (fun a b => a > b) →
      ((arrivals C rest done.length q).map (fun e => e.1)).Pairwise (fun a b => a > b)
      ∧ ∀ e ∈ arrivals C rest done.length q, (done ++ rest)[e.1]? = some e.2 := by
  induction rest with
  | nil =>
    intro done q hq hp
    refine ⟨hp, ?_⟩
    intro e he
    rw [List.append_nil]
    exact (hq e he).2
  | cons p rest ih =>
    intro done q hq hp
    have hlen : (done ++ [p]).length = done.length + 1 := by simp
    have hq' : ∀ e ∈ arrive C q done.length p,
        e.1 < (done ++ [p]).length ∧ (done ++ [p])[e.1]? = some e.2 := by
      intro e he
      rcases arrive_subset C q done.length p e he with rfl | hmem
      · refine ⟨by rw [hlen]; exact Nat.lt_succ_self _, ?_⟩
        exact List.getElem?_concat_length done p
      · have := hq e hmem
        refine ⟨by rw [hlen]; omega, ?_⟩
        rw [List.getElem?_append_left this.1]
        exact this.2
    have hp' := arrive_pairwise C q done.length p (fun e he => (hq e he).1) hp
    have := ih (done ++ [p]) (arrive C q done.length p) hq' hp'
    rw [hlen, List.append_assoc, List.singleton_append] at this
    exact this

end present

/-! ## The intermediate states of a put -/

section trace_lemmas

variable {K V : Type} [DecidableEq K]

theorem map_assign_length_le (m : List (K × Nat)) (k : K) (it : Nat) :
    (map_assign m k it).length ≤ m.length + 1 := by
  unfold map_assign
  split
  · simp
  · simp

theorem map_erase_length_le (m : List (K × Nat)) (k : K) :
    (map_erase m k).length ≤ m.length :=
  List.length_filter_le _ _

theorem lru_put_trace_last (s : Cache K V) (key : K) (val : V) :
    (LRUCache.put_trace s key val).getLast? = some (LRUCache.put s key val) := by
  unfold LRUCache.put_trace LRUCache.put
  cases map_find s.cache_map_ key <;> rfl

theorem lru_put_trace_bound (s : Cache K V) (h : Inv s) (key : K) (val : V) :
    ∀ s' ∈ LRUCache.put_trace s key val,
      s'.cache_list_.length ≤ s.size_ + 1 ∧ s'.cache_map_.length ≤ s.size_ + 1 := by
  have hb := h.bound
  have hm : s.cache_map_.length = s.cache_list_.length := by
    rw [h.map_eq, index_of_length]
  have hlast := lru_put_trace_last s key val
  have hfin := (inv_put_front s h key val).bound
  have hfinm : (put_front s key val).cache_map_.length
      = (put_front s key val).cache_list_.length := by
    rw [(inv_put_front s h key val).map_eq, index_of_length]
  have hsz : (put_front s key val).size_ = s.size_ := rfl
  rw [← LRUCache.put_eq_put_front s h] at hfin hfinm hsz
  intro s' hs'
  unfold LRUCache.put_trace at hs' hlast
  cases hf : map_find s.cache_map_ key with
  | none =>
    simp only [hf, List.mem_cons, List.mem_singleton, List.not_mem_nil, or_false] at hs'
    simp only [hf, List.getLast?_cons_cons, List.getLast?_singleton, Option.some.injEq]
      at hlast
    rcases hs' with rfl | rfl | rfl | rfl | rfl
    · simp only [List.length_cons]; omega
    · simp only [List.length_cons]; omega
    · simp only [List.length_cons]; omega
    · have := map_assign_length_le s.cache_map_ key
        (list_begin ((⟨s.next_addr, key, val⟩ : Node K V) :: s.cache_list_))
      simp only [List.length_cons]; omega
    · rw [hlast]; omega
  | some it =>
    simp only [hf, List.mem_cons, List.mem_singleton, List.not_mem_nil, or_false] at hs'
    simp only [hf, List.getLast?_cons_cons, List.getLast?_singleton, Option.some.injEq]
      at hlast
    have he := list_erase_length_le ((⟨s.next_addr, key, val⟩ : Node K V) :: s.cache_list_) it
    have hme := map_erase_length_le s.cache_map_ key
    simp only [List.length_cons] at he
    rcases hs' with rfl | rfl | rfl | rfl | rfl
    · simp only [List.length_cons]; omega
    · simp only []; omega
    · simp only []; omega
    · have := map_assign_length_le (map_erase s.cache_map_ key) key
        (list_begin (list_erase ((⟨s.next_addr, key, val⟩ : Node K V) :: s.cache_list_) it))
      simp only []; omega
    · rw [hlast]; omega

theorem fifo_put_trace_last [DecidableEq V] (s : Cache K V) (key : K) (val : V) :
    ((FIFOCache.put_trace s key val).getLast?).getD s = FIFOCache.put s key val := by
  unfold FIFOCache.put_trace FIFOCache.put
  cases map_find s.cache_map_ key with
  | none => rfl
  | some it =>
    simp only []
    split
    · rfl
    · split <;> rfl

theorem fifo_put_trace_bound [DecidableEq V] (s : Cache K V) (h : Inv s) (key : K) (val : V) :
    ∀ s' ∈ FIFOCache.put_trace s key val,
      s'.cache_list_.length ≤ s.size_ + 1 ∧ s'.cache_map_.length ≤ s.size_ + 1 := by
  have hb := h.bound
  have hm : s.cache_map_.length = s.cache_list_.length := by
    rw [h.map_eq, index_of_length]
  have hlast := fifo_put_trace_last s key val
  have hinv' := inv_fifo_put s h key val
  have hfin := hinv'.bound
  have hfinm : (FIFOCache.put s key val).cache_map_.length
      = (FIFOCache.put s key val).cache_list_.length := by
    rw [hinv'.map_eq, index_of_length]
  have hsz := fifo_put_size s key val
  intro s' hs'
  unfold FIFOCache.put_trace at hs' hlast
  cases hf : map_find s.cache_map_ key with
  | none =>
    simp only [hf, List.mem_cons, List.mem_singleton, List.not_mem_nil, or_false] at hs'
    simp only [hf, List.getLast?_cons_cons, List.getLast?_singleton, Option.getD_some]
      at hlast
    rcases hs' with rfl | rfl | rfl
    · simp only [List.length_cons]; omega
    · have := map_assign_length_le s.cache_map_ key
        (list_begin ((⟨s.next_addr, key, val⟩ : Node K V) :: s.cache_list_))
      simp only [List.length_cons]; omega
    · rw [hlast]; omega
  | some it =>
    simp only [hf] at hs' hlast
    have he := list_erase_length_le s.cache_list_ it
    have hme := map_erase_length_le s.cache_map_ key
    split at hs'
    · rename_i hne
      simp only [if_pos hne, List.getLast?_cons_cons, List.getLast?_singleton,
        Option.getD_some] at hlast
      simp only [List.mem_cons, List.mem_singleton, List.not_mem_nil, or_false] at hs'
      rcases hs' with rfl | rfl | rfl | rfl | rfl
      · simp only []; omega
      · simp only []; omega
      · simp only [List.length_cons]; omega
      · have := map_assign_length_le (map_erase s.cache_map_ key) key
          (list_begin ((⟨s.next_addr, key, val⟩ : Node K V) :: list_erase s.cache_list_ it))
        simp only [List.length_cons]; omega
      · rw [hlast]; omega
    · split at hs'
      · cases hs'
      · rename_i h1 h2
        exact absurd (not_not.1 h1) h2

end trace_lemmas

/-! ## Insertion order of the FIFO cache -/

section insertion_lemmas

variable {K V : Type} [DecidableEq K] [DecidableEq V]

theorem fifo_run_arrivals (C : Nat) (rest : List (K × V)) :
    ∀ (s : Cache K V) (q : List (Nat × K × V)) (t : Nat),
      Inv s → s.size_ = C → s.entries = q.map (fun e => e.2) →
      no_value_change s rest = true →
      (run Policy.FIFO s (puts rest)).entries
        = (arrivals C rest t q).map (fun e => e.2) := by
  induction rest with
  | nil => intro s q t _ _ he _; exact he
  | cons p rest ih =>
    intro s q t hinv hsz he hno
    simp only [no_value_change, Bool.and_eq_true, List.all_eq_true, Bool.or_eq_true,
      Bool.not_eq_true', decide_eq_false_iff_not, decide_eq_true_eq] at hno
    have hrun : run Policy.FIFO s (puts (p :: rest))
        = run Policy.FIFO (FIFOCache.put s p.1 p.2) (puts rest) := rfl
    rw [hrun]
    apply ih (FIFOCache.put s p.1 p.2) (arrive C q t p) (t + 1) (inv_fifo_put s hinv _ _)
      ((fifo_put_size s _ _).trans hsz) ?_ hno.2
    have hkeys : q.map (fun e => e.2.1) = s.entries.map (fun e => e.1) := by
      rw [he, List.map_map]
      rfl
    rw [FIFOCache.put_eq s hinv]
    unfold arrive
    rw [hkeys]
    by_cases hk : p.1 ∈ s.entries.map (fun e => e.1)
    · obtain ⟨e, hes, hek⟩ := List.mem_map.1 hk
      have hval : e.2 = p.2 := by
        rcases hno.1 e hes with hne | hv
        · exact absurd hek hne
        · exact hv
      have hin : (p.1, p.2) ∈ s.entries := by
        have : e = (p.1, p.2) := Prod.ext hek hval
        rw [← this]
        exact hes
      rw [if_pos hin, if_pos hk]
      exact he
    · have hnot : (p.1, p.2) ∉ s.entries := by
        intro hc
        exact hk (List.mem_map_of_mem (fun e => e.1) hc)
      have hfl : s.entries.filter (fun e => decide (e.1 ≠ p.1)) = s.entries := by
        apply List.filter_eq_self.2
        intro e hes
        have : e.1 ≠ p.1 := fun hc => hk (hc ▸ List.mem_map_of_mem (fun e => e.1) hes)
        simpa using this
      rw [if_neg hnot, if_neg hk, entries_put_front s hinv, hfl, hsz, List.map_take,
        List.map_cons, he]

end insertion_lemmas

/-! ## Claims about the caches -/

section cache_claims

variable {K V : Type} [DecidableEq K] [DecidableEq V]

/-- C1 (size bound). For both policies, every capacity `C` (zero included) and every sequence
of `put` (either overload), `del`, `poll`, `exists`, `get_size`, `get_max_size` calls on a
freshly constructed cache, after each call (after the first `n` calls, for every `n`)
`get_size() ≤ get_max_size()` and `get_max_size() = C`. -/
theorem size_le_max_size (p : Policy) (C : Nat) (ops : List (Op K V)) (n : Nat) :
    size_of p (run p (Cache.mk_empty K V C) (ops.take n))
        ≤ (run p (Cache.mk_empty K V C) (ops.take n)).get_max_size
      ∧ (run p (Cache.mk_empty K V C) (ops.take n)).get_max_size = C := by
  have hinv := inv_run p (ops.take n) (Cache.mk_empty K V C) (inv_mk_empty C)
  have hsz := size_run p (ops.take n) (Cache.mk_empty K V C)
  refine ⟨?_, hsz⟩
  have hlen : size_of p (run p (Cache.mk_empty K V C) (ops.take n))
      = (run p (Cache.mk_empty K V C) (ops.take n)).cache_list_.length := by
    cases p <;>
      simp only [size_of, LRUCache.get_size, FIFOCache.get_size, hinv.map_eq, index_of_length]
  rw [hlen]
  exact hinv.bound

/-- C2 (recency policy). After any sequence `ps` of puts on a fresh `LRUCache` of capacity
`C` the stored sequence is the first `C` elements of `last_puts ps.reverse`, where
`last_puts ps.reverse` is the sub-sequence of the puts, most recent first, that has pairwise
distinct keys and holds for each key exactly its most recent put. A further put leaves a
prefix of the new entry followed by the other entries in their order, so whatever is evicted
comes from the least recently used end; and the capacity-2 scenario
`put(a,1), put(b,2), put(a,10), put(c,3)` leaves `c` and `a`, evicts `b`, with size 2. -/
theorem lru_entries_eq_last_puts (C : Nat) (ps : List (K × V)) :
    (run Policy.LRU (Cache.mk_empty K V C) (puts ps)).entries = (last_puts ps.reverse).take C
    ∧ (last_puts ps.reverse).Sublist ps.reverse
    ∧ ((last_puts ps.reverse).map (fun q => q.1)).Nodup
    ∧ (∀ k v, (k, v) ∈ last_puts ps.reverse
        ↔ ps.reverse.find? (fun q => decide (q.1 = k)) = some (k, v))
    ∧ (∀ k v, (LRUCache.put (run Policy.LRU (Cache.mk_empty K V C) (puts ps)) k v).entries
        <+: (k, v) :: (run Policy.LRU (Cache.mk_empty K V C) (puts ps)).entries.filter
              (fun q => decide (q.1 ≠ k)))
    ∧ ((run Policy.LRU (Cache.mk_empty String Nat 2)
          (puts [("a", 1), ("b", 2), ("a", 10), ("c", 3)])).entries = [("c", 3), ("a", 10)]
        ∧ LRUCache.exists (run Policy.LRU (Cache.mk_empty String Nat 2)
          (puts [("a", 1), ("b", 2), ("a", 10), ("c", 3)])) "b" = false
        ∧ LRUCache.exists (run Policy.LRU (Cache.mk_empty String Nat 2)
          (puts [("a", 1), ("b", 2), ("a", 10), ("c", 3)])) "a" = true
        ∧ LRUCache.exists (run Policy.LRU (Cache.mk_empty String Nat 2)
          (puts [("a", 1), ("b", 2), ("a", 10), ("c", 3)])) "c" = true
        ∧ LRUCache.get_size (run Policy.LRU (Cache.mk_empty String Nat 2)
          (puts [("a", 1), ("b", 2), ("a", 10), ("c", 3)])) = 2) := by
  refine ⟨lru_run_puts_entries C ps, last_puts_sublist _, last_puts_keys_nodup _,
    fun k v => mem_last_puts_iff _ k v, ?_, ?_⟩
  · intro k v
    have hinv := inv_run Policy.LRU (puts ps) (Cache.mk_empty K V C) (inv_mk_empty C)
    rw [LRUCache.put_eq_put_front _ hinv, entries_put_front _ hinv]
    exact List.take_prefix _ _
  · decide

/-- C3 (insertion policy, unchanged re-put). In every state `s` reached from a fresh
`FIFOCache` by any calls, if the sequence holds key `k` with value `v` then `put(k, v)`, in
either overload, returns with the state exactly as it was: same index, same list in the same
order, hence the same size and stored values, `k` not moved, nothing evicted. -/
theorem fifo_put_unchanged_value (C : Nat) (ops : List (Op K V)) (k : K) (v : V)
    (h : (k, v) ∈ (run Policy.FIFO (Cache.mk_empty K V C) ops).entries) :
    FIFOCache.put (run Policy.FIFO (Cache.mk_empty K V C) ops) k v
        = run Policy.FIFO (Cache.mk_empty K V C) ops
    ∧ FIFOCache.put_rvalue (run Policy.FIFO (Cache.mk_empty K V C) ops) k v
        = run Policy.FIFO (Cache.mk_empty K V C) ops := by
  have hinv := inv_run Policy.FIFO ops (Cache.mk_empty K V C) (inv_mk_empty C)
  have hp := FIFOCache.put_eq _ hinv k v
  rw [if_pos h] at hp
  exact ⟨hp, (fifo_put_rvalue_eq _ k v).trans hp⟩

/-- Witness for C3: capacity 2, after `put(a,1), put(b,2)`, the call `put(a,1)`. -/
theorem fifo_put_unchanged_value_witness :
    ("a", 1) ∈ (run Policy.FIFO (Cache.mk_empty String Nat 2)
        [Op.put "a" 1, Op.put "b" 2]).entries
    ∧ (FIFOCache.put (run Policy.FIFO (Cache.mk_empty String Nat 2)
          [Op.put "a" 1, Op.put "b" 2]) "a" 1
        = run Policy.FIFO (Cache.mk_empty String Nat 2) [Op.put "a" 1, Op.put "b" 2]
      ∧ FIFOCache.put_rvalue (run Policy.FIFO (Cache.mk_empty String Nat 2)
          [Op.put "a" 1, Op.put "b" 2]) "a" 1
        = run Policy.FIFO (Cache.mk_empty String Nat 2) [Op.put "a" 1, Op.put "b" 2]) :=
  ⟨by decide, fifo_put_unchanged_value 2 [Op.put "a" 1, Op.put "b" 2] "a" 1 (by decide)⟩

/-- C4 (insertion policy, changed re-put). In every state `s` reached from a fresh
`FIFOCache`, if the sequence holds key `k` with value `v` and `w ≠ v`, then after `put(k, w)`
the sequence is `(k, w)` followed by all other entries in their previous order, the size is
unchanged, and every entry with another key is still stored. -/
theorem fifo_put_changed_value (C : Nat) (ops : List (Op K V)) (k : K) (v w : V)
    (h : (k, v) ∈ (run Policy.FIFO (Cache.mk_empty K V C) ops).entries) (hw : w ≠ v) :
    (FIFOCache.put (run Policy.FIFO (Cache.mk_empty K V C) ops) k w).entries
        = (k, w) :: (run Policy.FIFO (Cache.mk_empty K V C) ops).entries.filter
            (fun q => decide (q.1 ≠ k))
    ∧ FIFOCache.get_size (FIFOCache.put (run Policy.FIFO (Cache.mk_empty K V C) ops) k w)
        = FIFOCache.get_size (run Policy.FIFO (Cache.mk_empty K V C) ops)
    ∧ ∀ q ∈ (run Policy.FIFO (Cache.mk_empty K V C) ops).entries, q.1 ≠ k →
        q ∈ (FIFOCache.put (run Policy.FIFO (Cache.mk_empty K V C) ops) k w).entries := by
  have hinv := inv_run Policy.FIFO ops (Cache.mk_empty K V C) (inv_mk_empty C)
  generalize run Policy.FIFO (Cache.mk_empty K V C) ops = s at h hinv ⊢
  obtain ⟨n, hn, hnk⟩ := mem_entries_key s k v h
  have hnot : (k, w) ∉ s.entries := by
    intro hc
    have h1 := (mem_entries_iff s hinv n hn v).1 (by rw [hnk]; exact h)
    have h2 := (mem_entries_iff s hinv n hn w).1 (by rw [hnk]; exact hc)
    exact hw (h2.symm.trans h1)
  have hp := FIFOCache.put_eq s hinv k w
  rw [if_neg hnot, put_front_of_present s hinv k w ⟨n, hn, hnk⟩] at hp
  have he : (FIFOCache.put s k w).entries
      = (k, w) :: s.entries.filter (fun q => decide (q.1 ≠ k)) := by
    rw [hp, entries_with_list, List.map_cons, entries_filter]
    rfl
  refine ⟨he, ?_, ?_⟩
  · have hlen := filter_length_of_mem s.cache_list_ k hinv.keys_nodup ⟨n, hn, hnk⟩
    rw [hp]
    simp only [FIFOCache.get_size, with_list, index_of_length, List.length_cons, hinv.map_eq]
    exact hlen
  · intro q hq hqk
    rw [he]
    exact List.mem_cons_of_mem _ (List.mem_filter.2 ⟨hq, by simpa using hqk⟩)

/-- Witness for C4: capacity 2, after `put(a,1), put(b,2), put(a,1)` the sequence is
`b, a`; the call `put(a,7)` then gives `a, b` with `a` carrying 7. -/
theorem fifo_put_changed_value_witness :
    (("a", 1) ∈ (run Policy.FIFO (Cache.mk_empty String Nat 2)
        [Op.put "a" 1, Op.put "b" 2, Op.put "a" 1]).entries ∧ (7 : Nat) ≠ 1)
    ∧ (FIFOCache.put (run Policy.FIFO (Cache.mk_empty String Nat 2)
          [Op.put "a" 1, Op.put "b" 2, Op.put "a" 1]) "a" 7).entries
        = ("a", 7) :: (run Policy.FIFO (Cache.mk_empty String Nat 2)
            [Op.put "a" 1, Op.put "b" 2, Op.put "a" 1]).entries.filter
            (fun q => decide (q.1 ≠ "a")) :=
  ⟨⟨by decide, by decide⟩,
    (fifo_put_changed_value 2 [Op.put "a" 1, Op.put "b" 2, Op.put "a" 1] "a" 1 7
      (by decide) (by decide)).1⟩

/-- What `poll()` and `del()` do on a reachable state whose list ends in the node `n`:
`poll()` yields the pair of `n`; `del()` removes `n` and its index entry and nothing else,
and returns what `*last` reads after the pop. On a reachable empty state both yield
`boost::none` and `del()` changes nothing. -/
theorem poll_del_on_reachable (p : Policy) (C : Nat) (ops : List (Op K V)) :
    (∀ t n, (run p (Cache.mk_empty K V C) ops).cache_list_ = t ++ [n] →
      poll_of p (run p (Cache.mk_empty K V C) ops) = some (Deref.value (n.first, n.second))
      ∧ del_of p (run p (Cache.mk_empty K V C) ops)
          = (some Deref.dangling,
             with_list (run p (Cache.mk_empty K V C) ops) t
               (run p (Cache.mk_empty K V C) ops).next_addr)
      ∧ exists_of p (del_of p (run p (Cache.mk_empty K V C) ops)).2 n.first = false
      ∧ size_of p (del_of p (run p (Cache.mk_empty K V C) ops)).2 + 1
          = size_of p (run p (Cache.mk_empty K V C) ops))
    ∧ ((run p (Cache.mk_empty K V C) ops).cache_list_ = [] →
      poll_of p (run p (Cache.mk_empty K V C) ops) = none
      ∧ del_of p (run p (Cache.mk_empty K V C) ops)
          = (none, run p (Cache.mk_empty K V C) ops)) := by
  have hinv := inv_run p ops (Cache.mk_empty K V C) (inv_mk_empty C)
  generalize run p (Cache.mk_empty K V C) ops = s at hinv ⊢
  have hdel : del_of p s = LRUCache.del s := by cases p <;> rfl
  have hpoll : poll_of p s = LRUCache.poll s := by cases p <;> rfl
  have hex : ∀ s' : Cache K V, ∀ k, exists_of p s' k = (map_find s'.cache_map_ k).isSome := by
    intro s' k; cases p <;> rfl
  have hsize : ∀ s' : Cache K V, size_of p s' = s'.cache_map_.length := by
    intro s'; cases p <;> rfl
  constructor
  · intro t n hl
    have hk := hinv.keys_nodup
    rw [hl, List.map_append, List.nodup_append] at hk
    refine ⟨?_, ?_, ?_, ?_⟩
    · rw [hpoll]
      simp [LRUCache.poll, list_back, hinv.map_eq, hl, index_of]
    · rw [hdel, LRUCache.del_of_concat s hinv t n hl]
    · rw [hdel, LRUCache.del_of_concat s hinv t n hl, hex]
      have hnone : map_find (index_of t) n.first = none := by
        rw [map_find_eq_none_iff]
        intro m hm hc
        exact hk.2.2 (List.mem_map_of_mem _ hm) (by simp [hc])
      simp [with_list, hnone]
    · rw [hdel, LRUCache.del_of_concat s hinv t n hl, hsize, hsize, hinv.map_eq, hl]
      simp [with_list, index_of]
  · intro hl
    refine ⟨?_, ?_⟩
    · rw [hpoll]
      simp [LRUCache.poll, hinv.map_eq, hl, index_of]
    · rw [hdel, LRUCache.del_of_nil s hinv hl]

/-- C5 (poll/del agreement), evaluated on `LRUCache<int,int>(2)` after `put(1, 1)` and, for
the other class, on `FIFOCache<int,int>(2)` after `put(1, 1)`: `poll()` yields the tail entry
`(1, 1)`, and `del()` removes that entry, but the optional it returns is built from `*last`
after `pop_back()` has destroyed the node `last` designates, so it is a read of a destroyed
node and not the entry `poll()` returned. -/
theorem del_returns_read_of_destroyed_node :
    LRUCache.poll (run Policy.LRU (Cache.mk_empty Nat Nat 2) [Op.put 1 1])
        = some (Deref.value (1, 1))
    ∧ (LRUCache.del (run Policy.LRU (Cache.mk_empty Nat Nat 2) [Op.put 1 1])).1
        = some Deref.dangling
    ∧ (LRUCache.del (run Policy.LRU (Cache.mk_empty Nat Nat 2) [Op.put 1 1])).2.entries = []
    ∧ FIFOCache.poll (run Policy.FIFO (Cache.mk_empty Nat Nat 2) [Op.put 1 1])
        = some (Deref.value (1, 1))
    ∧ (FIFOCache.del (run Policy.FIFO (Cache.mk_empty Nat Nat 2) [Op.put 1 1])).1
        = some Deref.dangling
    ∧ (FIFOCache.del (run Policy.FIFO (Cache.mk_empty Nat Nat 2) [Op.put 1 1])).2.entries
        = [] := by
  decide

/-- C6 (index/sequence consistency). In every state reached from a fresh cache of either
policy: the keys of the sequence are pairwise distinct; the sequence length is the index size
`get_size()`; the index holds each key once; each index entry `(k, it)` designates a live
node whose key is `k`, and each node is indexed under its key with its own address; and
`exists(k)` holds exactly when the sequence has an entry with key `k`. -/
theorem index_matches_sequence (p : Policy) (C : Nat) (ops : List (Op K V)) :
    ((run p (Cache.mk_empty K V C) ops).entries.map (fun q => q.1)).Nodup
    ∧ (run p (Cache.mk_empty K V C) ops).cache_list_.length
        = size_of p (run p (Cache.mk_empty K V C) ops)
    ∧ ((run p (Cache.mk_empty K V C) ops).cache_map_.map (fun e => e.1)).Nodup
    ∧ (∀ k it, (k, it) ∈ (run p (Cache.mk_empty K V C) ops).cache_map_ →
        ∃ v, list_deref (run p (Cache.mk_empty K V C) ops).cache_list_ it
          = Deref.value (k, v))
    ∧ (∀ n ∈ (run p (Cache.mk_empty K V C) ops).cache_list_,
        (n.first, n.addr) ∈ (run p (Cache.mk_empty K V C) ops).cache_map_)
    ∧ (∀ k, exists_of p (run p (Cache.mk_empty K V C) ops) k = true
        ↔ ∃ v, (k, v) ∈ (run p (Cache.mk_empty K V C) ops).entries) := by
  have hinv := inv_run p ops (Cache.mk_empty K V C) (inv_mk_empty C)
  generalize run p (Cache.mk_empty K V C) ops = s at hinv ⊢
  have hkeys : s.entries.map (fun q => q.1) = s.cache_list_.map (fun n => n.first) := by
    simp [Cache.entries, Function.comp_def]
  have hmkeys : s.cache_map_.map (fun e => e.1) = s.cache_list_.map (fun n => n.first) := by
    simp [hinv.map_eq, index_of, Function.comp_def]
  refine ⟨?_, ?_, ?_, ?_, ?_, ?_⟩
  · rw [hkeys]; exact hinv.keys_nodup
  · cases p <;>
      simp only [size_of, LRUCache.get_size, FIFOCache.get_size, hinv.map_eq, index_of_length]
  · rw [hmkeys]; exact hinv.keys_nodup
  · intro k it hmem
    rw [hinv.map_eq] at hmem
    simp only [index_of, List.mem_map, Prod.mk.injEq] at hmem
    obtain ⟨n, hn, rfl, rfl⟩ := hmem
    exact ⟨n.second, list_deref_of_mem s.cache_list_ n hinv.addrs_nodup hn⟩
  · intro n hn
    rw [hinv.map_eq]
    exact List.mem_map_of_mem (fun n => (n.first, n.addr)) hn
  · intro k
    cases p <;>
      simpa only [exists_of, LRUCache.exists, FIFOCache.exists]
        using exists_iff_mem_entries s hinv k

/-- C14 (recency put equals its list reference). In every state reached from a fresh
`LRUCache` of capacity `C`, with stored sequence `l`, the sequence after `put(k, v)` is the
first `C` elements of `(k, v)` followed by `l` without its entry for `k`; the capacity is
still `C`; and the rvalue overload gives the same state as the const-reference overload. -/
theorem lru_put_eq_list_reference (C : Nat) (ops : List (Op K V)) (k : K) (v : V) :
    (LRUCache.put (run Policy.LRU (Cache.mk_empty K V C) ops) k v).entries
        = ((k, v) :: (run Policy.LRU (Cache.mk_empty K V C) ops).entries.filter
            (fun q => decide (q.1 ≠ k))).take C
    ∧ (LRUCache.put (run Policy.LRU (Cache.mk_empty K V C) ops) k v).get_max_size = C
    ∧ LRUCache.put_rvalue (run Policy.LRU (Cache.mk_empty K V C) ops) k v
        = LRUCache.put (run Policy.LRU (Cache.mk_empty K V C) ops) k v := by
  have hinv := inv_run Policy.LRU ops (Cache.mk_empty K V C) (inv_mk_empty C)
  have hsz := size_run Policy.LRU ops (Cache.mk_empty K V C)
  refine ⟨?_, ?_, rfl⟩
  · rw [LRUCache.put_eq_put_front _ hinv, entries_put_front _ hinv, hsz]
    rfl
  · rw [Cache.get_max_size, lru_put_size, hsz]
    rfl

/-- C17 (a put entry is retained exactly when the capacity is positive). For both policies,
every capacity `C`, every state reached from a fresh cache and every `k`, `v`: after
`put(k, v)`, `exists(k)` holds if and only if `C ≥ 1`; the sequence holds `(k, v')` if and
only if `C ≥ 1` and `v' = v`; and with `C = 0` the cache is empty after the put. -/
theorem put_retained_iff_capacity_pos (p : Policy) (C : Nat) (ops : List (Op K V)) (k : K)
    (v : V) :
    (exists_of p (put_of p (run p (Cache.mk_empty K V C) ops) k v) k = true ↔ 1 ≤ C)
    ∧ (∀ v', (k, v') ∈ (put_of p (run p (Cache.mk_empty K V C) ops) k v).entries
        ↔ (1 ≤ C ∧ v' = v))
    ∧ (C = 0 → (put_of p (run p (Cache.mk_empty K V C) ops) k v).entries = []
        ∧ size_of p (put_of p (run p (Cache.mk_empty K V C) ops) k v) = 0) := by
  have hinv := inv_run p ops (Cache.mk_empty K V C) (inv_mk_empty C)
  have hsz : (run p (Cache.mk_empty K V C) ops).size_ = C :=
    size_run p ops (Cache.mk_empty K V C)
  generalize run p (Cache.mk_empty K V C) ops = s at hinv hsz ⊢
  have hinv' : Inv (put_of p s k v) := by
    cases p
    · exact inv_step Policy.LRU s hinv (Op.put k v)
    · exact inv_step Policy.FIFO s hinv (Op.put k v)
  have hsz' : (put_of p s k v).size_ = C := by
    cases p
    · exact (lru_put_size s k v).trans hsz
    · exact (fifo_put_size s k v).trans hsz
  have hmem : ∀ v', (k, v') ∈ (put_of p s k v).entries ↔ (1 ≤ C ∧ v' = v) := by
    intro v'
    rw [← hsz]
    cases p
    · simp only [put_of]
      rw [LRUCache.put_eq_put_front s hinv]
      exact mem_entries_put_front_key s hinv k v v'
    · simp only [put_of]
      rw [FIFOCache.put_eq s hinv]
      split
      · rename_i hin
        exact mem_entries_unique s hinv k v v' hin
      · exact mem_entries_put_front_key s hinv k v v'
  have hex : exists_of p (put_of p s k v) k = true
      ↔ ∃ v', (k, v') ∈ (put_of p s k v).entries := by
    cases p <;>
      simpa only [exists_of, LRUCache.exists, FIFOCache.exists]
        using exists_iff_mem_entries _ hinv' k
  refine ⟨?_, hmem, ?_⟩
  · rw [hex]
    constructor
    · rintro ⟨v', hv'⟩
      exact ((hmem v').1 hv').1
    · intro hC
      exact ⟨v, (hmem v).2 ⟨hC, rfl⟩⟩
  · intro hC
    have hlen : (put_of p s k v).cache_list_.length = 0 := by
      have := hinv'.bound
      omega
    have hnil : (put_of p s k v).cache_list_ = [] := List.length_eq_zero.1 hlen
    constructor
    · simp [Cache.entries, hnil]
    · cases p <;>
        simp [size_of, LRUCache.get_size, FIFOCache.get_size, hinv'.map_eq, hnil, index_of]

/-- Witness for C17: a `FIFOCache` of capacity 0 after `put(a, 1)`, then `put(b, 2)`. -/
theorem put_retained_iff_capacity_pos_witness :
    (0 : Nat) = 0
    ∧ (put_of Policy.FIFO (run Policy.FIFO (Cache.mk_empty String Nat 0) [Op.put "a" 1])
          "b" 2).entries = []
    ∧ size_of Policy.FIFO (put_of Policy.FIFO
          (run Policy.FIFO (Cache.mk_empty String Nat 0) [Op.put "a" 1]) "b" 2) = 0 :=
  ⟨rfl, (put_retained_iff_capacity_pos Policy.FIFO 0 [Op.put "a" 1] "b" 2).2.2 rfl⟩

theorem fifo_put_eq_lru_put (s : Cache K V) (h : Inv s) (k : K) (v : V)
    (hn : (k, v) ∉ s.entries) : FIFOCache.put s k v = LRUCache.put s k v := by
  rw [FIFOCache.put_eq s h, if_neg hn, LRUCache.put_eq_put_front s h]

theorem step_fifo_eq_lru (s : Cache K V) (h : Inv s) (op : Op K V)
    (hu : unchanged_reput s op = false) :
    step Policy.FIFO s op = step Policy.LRU s op := by
  cases op with
  | put k v =>
    have hn : (k, v) ∉ s.entries := by simpa [unchanged_reput] using hu
    exact fifo_put_eq_lru_put s h k v hn
  | put_rvalue k v =>
    have hn : (k, v) ∉ s.entries := by simpa [unchanged_reput] using hu
    exact fifo_put_eq_lru_put s h k v hn
  | del => rfl
  | poll => rfl
  | «exists» k => rfl
  | exists_rvalue k => rfl
  | get_size => rfl
  | get_max_size => rfl

theorem run_fifo_eq_lru (ops : List (Op K V)) :
    ∀ s : Cache K V, Inv s → no_unchanged_reput s ops = true →
      run Policy.FIFO s ops = run Policy.LRU s ops
      ∧ outputs Policy.FIFO s ops = outputs Policy.LRU s ops := by
  induction ops with
  | nil => intro s _ _; exact ⟨rfl, rfl⟩
  | cons op rest ih =>
    intro s h hno
    simp only [no_unchanged_reput, Bool.and_eq_true, Bool.not_eq_true'] at hno
    have hstep := step_fifo_eq_lru s h op hno.1
    have hrest := ih (step Policy.LRU s op) (inv_step Policy.LRU s h op) hno.2
    constructor
    · show run Policy.FIFO (step Policy.FIFO s op) rest
        = run Policy.LRU (step Policy.LRU s op) rest
      rw [hstep]
      exact hrest.1
    · show output Policy.FIFO s op :: outputs Policy.FIFO (step Policy.FIFO s op) rest
        = output Policy.LRU s op :: outputs Policy.LRU (step Policy.LRU s op) rest
      rw [hstep, output_fifo_eq_lru, hrest.2]

/-- C13 (FIFO equals LRU except for unchanged re-puts). The two classes have the same
`del`, `poll`, `exists` and `get_size` on every state (and share `get_max_size`). In every
state `s` reached from a fresh cache under either policy: if `s` does not hold `(k, v)` then
`FIFOCache::put(k, v)` and `LRUCache::put(k, v)` leave the same state; if it does, FIFO
leaves `s` unchanged while LRU leaves `(k, v)` at the head followed by the other entries.
And a sequence of calls on a fresh cache none of which is an unchanged re-put leaves the
same state and returns the same values under both policies. -/
theorem fifo_eq_lru_except_unchanged_reput (p : Policy) (C : Nat) (ops : List (Op K V))
    (k : K) (v : V) :
    (∀ s : Cache K V, FIFOCache.del s = LRUCache.del s ∧ FIFOCache.poll s = LRUCache.poll s
        ∧ FIFOCache.get_size s = LRUCache.get_size s
        ∧ ∀ k', FIFOCache.exists s k' = LRUCache.exists s k')
    ∧ ((k, v) ∉ (run p (Cache.mk_empty K V C) ops).entries →
        FIFOCache.put (run p (Cache.mk_empty K V C) ops) k v
          = LRUCache.put (run p (Cache.mk_empty K V C) ops) k v)
    ∧ ((k, v) ∈ (run p (Cache.mk_empty K V C) ops).entries →
        FIFOCache.put (run p (Cache.mk_empty K V C) ops) k v
          = run p (Cache.mk_empty K V C) ops
        ∧ (LRUCache.put (run p (Cache.mk_empty K V C) ops) k v).entries
          = (k, v) :: (run p (Cache.mk_empty K V C) ops).entries.filter
              (fun q => decide (q.1 ≠ k)))
    ∧ (no_unchanged_reput (Cache.mk_empty K V C) ops = true →
        run Policy.FIFO (Cache.mk_empty K V C) ops = run Policy.LRU (Cache.mk_empty K V C) ops
        ∧ outputs Policy.FIFO (Cache.mk_empty K V C) ops
          = outputs Policy.LRU (Cache.mk_empty K V C) ops) := by
  have hinv := inv_run p ops (Cache.mk_empty K V C) (inv_mk_empty C)
  refine ⟨fun s => ⟨rfl, rfl, rfl, fun _ => rfl⟩, ?_, ?_, ?_⟩
  · exact fifo_put_eq_lru_put _ hinv k v
  · intro hin
    constructor
    · rw [FIFOCache.put_eq _ hinv, if_pos hin]
    · rw [LRUCache.put_eq_put_front _ hinv,
        put_front_of_present _ hinv k v (mem_entries_key _ k v hin), entries_with_list,
        List.map_cons, entries_filter]
      rfl
  · exact run_fifo_eq_lru ops (Cache.mk_empty K V C) (inv_mk_empty C)

/-- Witness for C13: capacity 2 and the calls `put(a,1), put(b,2), put(a,10), poll(),
put(c,3), del(), exists(a)`, none of them an unchanged re-put. -/
theorem fifo_eq_lru_except_unchanged_reput_witness :
    no_unchanged_reput (Cache.mk_empty String Nat 2)
        [Op.put "a" 1, Op.put "b" 2, Op.put "a" 10, Op.poll, Op.put "c" 3, Op.del,
         Op.exists "a"] = true
    ∧ run Policy.FIFO (Cache.mk_empty String Nat 2)
        [Op.put "a" 1, Op.put "b" 2, Op.put "a" 10, Op.poll, Op.put "c" 3, Op.del,
         Op.exists "a"]
      = run Policy.LRU (Cache.mk_empty String Nat 2)
        [Op.put "a" 1, Op.put "b" 2, Op.put "a" 10, Op.poll, Op.put "c" 3, Op.del,
         Op.exists "a"]
    ∧ outputs Policy.FIFO (Cache.mk_empty String Nat 2)
        [Op.put "a" 1, Op.put "b" 2, Op.put "a" 10, Op.poll, Op.put "c" 3, Op.del,
         Op.exists "a"]
      = outputs Policy.LRU (Cache.mk_empty String Nat 2)
        [Op.put "a" 1, Op.put "b" 2, Op.put "a" 10, Op.poll, Op.put "c" 3, Op.del,
         Op.exists "a"] :=
  ⟨by decide,
    (fifo_eq_lru_except_unchanged_reput Policy.LRU 2
      [Op.put "a" 1, Op.put "b" 2, Op.put "a" 10, Op.poll, Op.put "c" 3, Op.del,
       Op.exists "a"] "a" 1).2.2.2 (by decide)⟩

theorem put_of_present_cases (p : Policy) (s : Cache K V) (h : Inv s) (k : K) (v : V)
    (hm : ∃ n ∈ s.cache_list_, n.first = k) :
    put_of p s k v = s
    ∨ put_of p s k v = with_list s ((⟨s.next_addr, k, v⟩ : Node K V) ::
        s.cache_list_.filter (fun n => decide (n.first ≠ k))) (s.next_addr + 1) := by
  cases p
  · right
    simp only [put_of]
    rw [LRUCache.put_eq_put_front s h, put_front_of_present s h k v hm]
  · simp only [put_of]
    rw [FIFOCache.put_eq s h]
    split
    · exact Or.inl rfl
    · exact Or.inr (put_front_of_present s h k v hm)

theorem put_of_absent (p : Policy) (s : Cache K V) (h : Inv s) (k : K) (v : V)
    (hfresh : ∀ n ∈ s.cache_list_, n.first ≠ k) :
    put_of p s k v = with_list s
      (trim s.size_ ((⟨s.next_addr, k, v⟩ : Node K V) :: s.cache_list_)) (s.next_addr + 1) := by
  have hfl := filter_key_of_fresh s.cache_list_ k hfresh
  have hpf : put_front s k v = with_list s
      (trim s.size_ ((⟨s.next_addr, k, v⟩ : Node K V) :: s.cache_list_)) (s.next_addr + 1) := by
    simp only [put_front, hfl]
  cases p
  · simp only [put_of]
    rw [LRUCache.put_eq_put_front s h, hpf]
  · simp only [put_of]
    have hnot : (k, v) ∉ s.entries := by
      intro hc
      obtain ⟨n, hn, hnk⟩ := mem_entries_key s k v hc
      exact hfresh n hn hnk
    rw [FIFOCache.put_eq s h, if_neg hnot, hpf]

/-- C15 (at most one eviction per put). In every state `s` reached from a fresh cache of
capacity `C` under either policy, with `n = get_size()`: a put on a key that is present
leaves `get_size() = n` and every key that was present is still present; a put on a key that
is not present leaves `get_size() = min (n + 1) C` and the sequence is the new entry
followed by the old ones, without its last entry exactly when `n = C`. Every state passed
through during `LRUCache::put` and `FIFOCache::put`, statement by statement, holds at most
`C + 1` list nodes and at most `C + 1` index entries, and the last of them is the state the
put leaves. -/
theorem put_evicts_at_most_once (p : Policy) (C : Nat) (ops : List (Op K V)) (k : K) (v : V) :
    (exists_of p (run p (Cache.mk_empty K V C) ops) k = true →
      size_of p (put_of p (run p (Cache.mk_empty K V C) ops) k v)
        = size_of p (run p (Cache.mk_empty K V C) ops)
      ∧ ∀ k', exists_of p (run p (Cache.mk_empty K V C) ops) k' = true →
          exists_of p (put_of p (run p (Cache.mk_empty K V C) ops) k v) k' = true)
    ∧ (exists_of p (run p (Cache.mk_empty K V C) ops) k = false →
      size_of p (put_of p (run p (Cache.mk_empty K V C) ops) k v)
        = min (size_of p (run p (Cache.mk_empty K V C) ops) + 1) C
      ∧ (put_of p (run p (Cache.mk_empty K V C) ops) k v).entries
        = (if size_of p (run p (Cache.mk_empty K V C) ops) = C
            then ((k, v) :: (run p (Cache.mk_empty K V C) ops).entries).dropLast
            else (k, v) :: (run p (Cache.mk_empty K V C) ops).entries))
    ∧ ((LRUCache.put_trace (run p (Cache.mk_empty K V C) ops) k v).getLast?
          = some (LRUCache.put (run p (Cache.mk_empty K V C) ops) k v)
        ∧ ∀ s' ∈ LRUCache.put_trace (run p (Cache.mk_empty K V C) ops) k v,
            s'.cache_list_.length ≤ C + 1 ∧ s'.cache_map_.length ≤ C + 1)
    ∧ (((FIFOCache.put_trace (run p (Cache.mk_empty K V C) ops) k v).getLast?).getD
            (run p (Cache.mk_empty K V C) ops)
          = FIFOCache.put (run p (Cache.mk_empty K V C) ops) k v
        ∧ ∀ s' ∈ FIFOCache.put_trace (run p (Cache.mk_empty K V C) ops) k v,
            s'.cache_list_.length ≤ C + 1 ∧ s'.cache_map_.length ≤ C + 1) := by
  have hinv := inv_run p ops (Cache.mk_empty K V C) (inv_mk_empty C)
  have hsz : (run p (Cache.mk_empty K V C) ops).size_ = C :=
    size_run p ops (Cache.mk_empty K V C)
  generalize run p (Cache.mk_empty K V C) ops = s at hinv hsz ⊢
  have hinv' : Inv (put_of p s k v) := by
    cases p
    · exact inv_step Policy.LRU s hinv (Op.put k v)
    · exact inv_step Policy.FIFO s hinv (Op.put k v)
  refine ⟨?_, ?_, ⟨lru_put_trace_last s k v, ?_⟩, ⟨fifo_put_trace_last s k v, ?_⟩⟩
  · intro hex
    have hm := (exists_of_iff_node p s hinv k).1 hex
    have hlen := filter_length_of_mem s.cache_list_ k hinv.keys_nodup hm
    rw [size_of_eq_length p _ hinv', size_of_eq_length p s hinv]
    rcases put_of_present_cases p s hinv k v hm with hp | hp
    · rw [hp]
      exact ⟨rfl, fun _ hk' => hk'⟩
    · refine ⟨?_, ?_⟩
      · rw [hp]
        simp only [with_list, List.length_cons]
        exact hlen
      · intro k' hk'
        rw [exists_of_iff_node p _ hinv', hp]
        obtain ⟨n, hn, hnk⟩ := (exists_of_iff_node p s hinv k').1 hk'
        by_cases hkk : k' = k
        · exact ⟨⟨s.next_addr, k, v⟩, List.mem_cons_self _ _, hkk.symm⟩
        · refine ⟨n, List.mem_cons_of_mem _ (List.mem_filter.2 ⟨hn, ?_⟩), hnk⟩
          simpa [hnk] using hkk
  · intro hex
    have hfresh : ∀ n ∈ s.cache_list_, n.first ≠ k := by
      intro n hn hnk
      have := (exists_of_iff_node p s hinv k).2 ⟨n, hn, hnk⟩
      rw [hex] at this
      exact Bool.false_ne_true this
    have hp := put_of_absent p s hinv k v hfresh
    have hb := hinv.bound
    rw [size_of_eq_length p _ hinv', size_of_eq_length p s hinv, hp, hsz]
    rw [hsz] at hb
    simp only [with_list, Cache.entries, trim, List.length_cons]
    by_cases hfull : s.cache_list_.length = C
    · have hgt : s.cache_list_.length + 1 > C := by omega
      simp only [if_pos hgt, if_pos hfull, List.length_dropLast, List.length_cons,
        List.map_dropLast, List.map_cons]
      constructor
      · omega
      · trivial
    · have hgt : ¬ s.cache_list_.length + 1 > C := by omega
      simp only [if_neg hgt, if_neg hfull, List.length_cons, List.map_cons]
      constructor
      · omega
      · trivial
  · rw [← hsz]
    exact lru_put_trace_bound s hinv k v
  · rw [← hsz]
    exact fifo_put_trace_bound s hinv k v

/-- Witness for C15: a full `LRUCache` of capacity 2 holding `b, a`; `put(a, 5)` on the
present key `a` keeps the size at 2 and keeps `b`. -/
theorem put_evicts_at_most_once_witness :
    exists_of Policy.LRU (run Policy.LRU (Cache.mk_empty String Nat 2)
        [Op.put "a" 1, Op.put "b" 2]) "a" = true
    ∧ size_of Policy.LRU (put_of Policy.LRU (run Policy.LRU (Cache.mk_empty String Nat 2)
          [Op.put "a" 1, Op.put "b" 2]) "a" 5)
        = size_of Policy.LRU (run Policy.LRU (Cache.mk_empty String Nat 2)
          [Op.put "a" 1, Op.put "b" 2])
    ∧ ∀ k', exists_of Policy.LRU (run Policy.LRU (Cache.mk_empty String Nat 2)
          [Op.put "a" 1, Op.put "b" 2]) k' = true →
        exists_of Policy.LRU (put_of Policy.LRU (run Policy.LRU (Cache.mk_empty String Nat 2)
          [Op.put "a" 1, Op.put "b" 2]) "a" 5) k' = true :=
  ⟨by decide,
    (put_evicts_at_most_once Policy.LRU 2 [Op.put "a" 1, Op.put "b" 2] "a" 5).1 (by decide)⟩

/-- C16 (insertion policy is first-in-first-out when values do not change). For every
capacity `C` and every sequence `ps` of puts on a fresh `FIFOCache` in which no put gives a
key that is present a value other than the stored one, the stored sequence is the insertion
order `arrivals C ps 0 []`: each entry carries the time of the put at which its key, not
being present, entered; these times strictly decrease from head to tail; the put made at
that time is the entry itself; and `poll()` yields the tail, the entry present longest. -/
theorem fifo_entries_in_arrival_order (C : Nat) (ps : List (K × V))
    (h : no_value_change (Cache.mk_empty K V C) ps = true) :
    (run Policy.FIFO (Cache.mk_empty K V C) (puts ps)).entries
        = (arrivals C ps 0 []).map (fun e => e.2)
    ∧ ((arrivals C ps 0 []).map (fun e => e.1)).Pairwise (fun a b => a > b)
    ∧ (∀ e ∈ arrivals C ps 0 [], ps[e.1]? = some e.2)
    ∧ FIFOCache.poll (run Policy.FIFO (Cache.mk_empty K V C) (puts ps))
        = ((arrivals C ps 0 []).getLast?).map (fun e => Deref.value e.2) := by
  have hinv := inv_run Policy.FIFO (puts ps) (Cache.mk_empty K V C) (inv_mk_empty C)
  have hent := fifo_run_arrivals C ps (Cache.mk_empty K V C) [] 0 (inv_mk_empty C) rfl rfl h
  have hst := arrivals_stamps C ps [] [] (fun e he => absurd he (List.not_mem_nil e))
    List.Pairwise.nil
  simp only [List.length_nil, List.nil_append] at hst
  refine ⟨hent, hst.1, hst.2, ?_⟩
  show LRUCache.poll (run Policy.FIFO (Cache.mk_empty K V C) (puts ps)) = _
  rw [poll_eq_last_entry _ hinv, hent, List.getLast?_map, Option.map_map]
  rfl

/-- Witness for C16: capacity 2 and `put(a,1), put(b,2), put(a,1), put(c,3)`; the re-put of
`a` does not renew it, so `c` evicts `a` and the sequence is `c, b`. -/
theorem fifo_entries_in_arrival_order_witness :
    no_value_change (Cache.mk_empty String Nat 2) [("a", 1), ("b", 2), ("a", 1), ("c", 3)]
        = true
    ∧ (run Policy.FIFO (Cache.mk_empty String Nat 2)
          (puts [("a", 1), ("b", 2), ("a", 1), ("c", 3)])).entries
        = (arrivals 2 [("a", 1), ("b", 2), ("a", 1), ("c", 3)] 0 []).map (fun e => e.2)
    ∧ arrivals 2 [("a", 1), ("b", 2), ("a", 1), ("c", 3)] 0 []
        = [(3, "c", 3), (1, "b", 2)] :=
  ⟨by decide,
    (fifo_entries_in_arrival_order 2 [("a", 1), ("b", 2), ("a", 1), ("c", 3)] (by decide)).1,
    by decide⟩

end cache_claims

/-! ## Claims about the page registry -/

section registry_claims

open PageStore

theorem count_finalize_loop (m : PageMap) (p : Nat) :
    (finalize_loop m).count (Event.finalize p) = (m.map (fun e => e.2)).count p
    ∧ (finalize_loop m).count (Event.delete_page p) = (m.map (fun e => e.2)).count p := by
  induction m with
  | nil => simp [finalize_loop]
  | cons a t ih =>
    by_cases h : a.2 = p
    · simp [finalize_loop, List.count_cons, h, ih.1, ih.2]
    · simp [finalize_loop, List.count_cons, h, ih.1, ih.2]

theorem finalize_loop_only_pages (m : PageMap) :
    Event.delete_map ∉ finalize_loop m ∧ Event.delete_set ∉ finalize_loop m := by
  induction m with
  | nil => simp [finalize_loop]
  | cons a t ih => simp [finalize_loop, ih.1, ih.2]

theorem finalize_loop_eq_flatten (m : PageMap) :
    finalize_loop m
      = (m.map (fun e => [Event.finalize e.2, Event.delete_page e.2])).flatten := by
  induction m with
  | nil => rfl
  | cons a t ih => simp [finalize_loop, ih]

/-- C7 (registry restart). From every registry state in which the set is present whenever
the map is (Uninitialized, Freed, or Initialized with any pages and counter), the teardown
callback `drop_all_pages(); free_page_map()` completes and leaves counter 0 with map and set
absent; a following `get_page_map()` returns an empty map and leaves map and set present and
empty; and a first `get_page_map()` on a never-accessed registry does the same. -/
theorem registry_restart (w : Nat) (ctx : Context) (s : PageStore)
    (h : s.page_map_.isSome = true → s.page_set_.isSome = true) :
    (∃ s1 ev, finalize_all_objlists w s = some (s1, ev)
      ∧ s1.s_counter = 0 ∧ s1.page_map_ = none ∧ s1.page_set_ = none
      ∧ ∃ s2, get_page_map w ctx s1 = some ([], s2)
          ∧ s2.page_map_ = some [] ∧ s2.page_set_ = some [])
    ∧ ∃ s3, get_page_map w ctx initial = some ([], s3)
        ∧ s3.page_map_ = some [] ∧ s3.page_set_ = some [] := by
  constructor
  · obtain ⟨pm, pst, c, t, ps⟩ := s
    cases pm with
    | none =>
      exact ⟨_, _, rfl, rfl, rfl, rfl, _, rfl, rfl, rfl⟩
    | some m =>
      cases pst with
      | none => simp at h
      | some st => exact ⟨_, _, rfl, rfl, rfl, rfl, _, rfl, rfl, rfl⟩
  · exact ⟨_, rfl, rfl, rfl⟩

/-- Witness for C7: an Initialized registry holding two pages, counter 5. -/
theorem registry_restart_witness :
    ((some [(0, 100), (1, 101)] : Option PageMap).isSome = true →
      (some [0, 1] : Option PageSet).isSome = true)
    ∧ ∃ s1 ev, finalize_all_objlists 64
          ⟨some [(0, 100), (1, 101)], some [0, 1], 5, 3, 4096⟩ = some (s1, ev)
        ∧ s1.s_counter = 0 ∧ s1.page_map_ = none ∧ s1.page_set_ = none
        ∧ ∃ s2, get_page_map 64 ⟨3, fun _ => "4096", fun _ _ => 4096⟩ s1 = some ([], s2)
            ∧ s2.page_map_ = some [] ∧ s2.page_set_ = some [] :=
  ⟨fun _ => rfl,
    (registry_restart 64 ⟨3, fun _ => "4096", fun _ _ => 4096⟩
      ⟨some [(0, 100), (1, 101)], some [0, 1], 5, 3, 4096⟩ (fun _ => rfl)).1⟩

/-- C8 (drop_all_pages finalizes every page exactly once). On an Initialized registry with
map `m`, `drop_all_pages()` completes; its effects are, entry by entry, `finalize` on the
page and then its release, and nothing else; every page is finalized and released as often
as it is registered, so exactly once when the registered pages are pairwise distinct and
never when it is not registered; map and set are left present and empty; counter, thread
identity and page size are unchanged. -/
theorem drop_all_pages_finalizes_each (m : PageMap) (st : PageSet) (c t ps : Nat) :
    drop_all_pages ⟨some m, some st, c, t, ps⟩
        = some (⟨some [], some [], c, t, ps⟩, finalize_loop m)
    ∧ finalize_loop m = (m.map (fun e => [Event.finalize e.2, Event.delete_page e.2])).flatten
    ∧ (∀ p, (finalize_loop m).count (Event.finalize p) = (m.map (fun e => e.2)).count p)
    ∧ (∀ p, (finalize_loop m).count (Event.delete_page p) = (m.map (fun e => e.2)).count p)
    ∧ ((m.map (fun e => e.2)).Nodup → ∀ p,
        (finalize_loop m).count (Event.finalize p) = (if p ∈ m.map (fun e => e.2) then 1 else 0)
        ∧ (finalize_loop m).count (Event.delete_page p)
            = (if p ∈ m.map (fun e => e.2) then 1 else 0))
    ∧ Event.delete_map ∉ finalize_loop m ∧ Event.delete_set ∉ finalize_loop m := by
  refine ⟨rfl, finalize_loop_eq_flatten m, fun p => (count_finalize_loop m p).1,
    fun p => (count_finalize_loop m p).2, ?_, (finalize_loop_only_pages m).1,
    (finalize_loop_only_pages m).2⟩
  intro hnd p
  rw [(count_finalize_loop m p).1, (count_finalize_loop m p).2, List.count_eq_of_nodup hnd]
  exact ⟨rfl, rfl⟩

/-- Witness for C8: two distinct pages 100 and 101 under tags 0 and 1. -/
theorem drop_all_pages_finalizes_each_witness :
    (([(0, 100), (1, 101)] : PageMap).map (fun e => e.2)).Nodup
    ∧ drop_all_pages ⟨some [(0, 100), (1, 101)], some [0, 1], 5, 3, 4096⟩
        = some (⟨some [], some [], 5, 3, 4096⟩,
            [Event.finalize 100, Event.delete_page 100,
             Event.finalize 101, Event.delete_page 101])
    ∧ ∀ p, (finalize_loop [(0, 100), (1, 101)]).count (Event.finalize p)
        = (if p ∈ ([(0, 100), (1, 101)] : PageMap).map (fun e => e.2) then 1 else 0) :=
  ⟨by decide,
    (drop_all_pages_finalizes_each [(0, 100), (1, 101)] [0, 1] 5 3 4096).1,
    fun p => ((drop_all_pages_finalizes_each [(0, 100), (1, 101)] [0, 1] 5 3 4096).2.2.2.2.1
      (by decide) p).1⟩

/-- C9 (drop_all_pages is safe and idempotent). With the map absent (Uninitialized or Freed,
whatever the other members hold) `drop_all_pages()` changes nothing and has no effect on any
page; on a present, empty registry it changes nothing and has no effect on any page; on every
Initialized registry a second consecutive call leaves the state the first call produced and
finalizes or releases nothing; and in every state whatever, two consecutive calls end as one
call does, the second without any effect. -/
theorem drop_all_pages_idempotent :
    (∀ (st : Option PageSet) (c t ps : Nat),
        drop_all_pages ⟨none, st, c, t, ps⟩ = some (⟨none, st, c, t, ps⟩, []))
    ∧ (∀ c t ps : Nat,
        drop_all_pages ⟨some [], some [], c, t, ps⟩ = some (⟨some [], some [], c, t, ps⟩, []))
    ∧ (∀ (m : PageMap) (st : PageSet) (c t ps : Nat),
        ∃ s1, drop_all_pages ⟨some m, some st, c, t, ps⟩ = some (s1, finalize_loop m)
          ∧ drop_all_pages s1 = some (s1, []))
    ∧ (∀ s : PageStore,
        (drop_all_pages s).bind (fun r => drop_all_pages r.1)
          = (drop_all_pages s).map (fun r => (r.1, []))) := by
  refine ⟨fun _ _ _ _ => rfl, fun _ _ _ => rfl, fun _ _ _ _ _ => ⟨_, rfl, rfl⟩, ?_⟩
  intro s
  obtain ⟨pm, pst, c, t, ps⟩ := s
  cases pm with
  | none => rfl
  | some m =>
    cases pst with
    | none => rfl
    | some st => rfl

/-- C10 as stated fails: after `free_page_map()` on a never-accessed registry (64-bit
`size_t`) thread identity and page size read `2^64 - 1`, while a never-accessed registry
reads 0 for both. -/
theorem freed_differs_from_initial :
    (free_page_map 64 initial).1 ≠ initial
    ∧ (free_page_map 64 initial).1.tid_ = 2 ^ 64 - 1 ∧ initial.tid_ = 0
    ∧ (free_page_map 64 initial).1.page_size_ = 2 ^ 64 - 1 ∧ initial.page_size_ = 0 := by
  decide

/-- C10 amended. For every registry state, the state after `free_page_map()`, and after the
teardown callback from an Uninitialized, Freed or Initialized registry, has map absent, set
absent and counter 0, the values of a never-accessed registry, and holds `2^w - 1` as thread
identity and as page size, where a never-accessed registry holds 0. -/
theorem freed_state (w : Nat) :
    (∀ s : PageStore, (free_page_map w s).1 = ⟨none, none, 0, 2 ^ w - 1, 2 ^ w - 1⟩)
    ∧ (∀ (st : Option PageSet) (c t ps : Nat),
        (finalize_all_objlists w ⟨none, st, c, t, ps⟩).map (fun r => r.1)
          = some ⟨none, none, 0, 2 ^ w - 1, 2 ^ w - 1⟩)
    ∧ (∀ (m : PageMap) (st : PageSet) (c t ps : Nat),
        (finalize_all_objlists w ⟨some m, some st, c, t, ps⟩).map (fun r => r.1)
          = some ⟨none, none, 0, 2 ^ w - 1, 2 ^ w - 1⟩)
    ∧ initial = ⟨none, none, 0, 0, 0⟩ := by
  exact ⟨fun _ => rfl, fun _ _ _ _ => rfl, fun _ _ _ _ _ => rfl, rfl⟩

/-- C11 as stated fails: a registry initialised while the configuration read `4096` and
accessed again through `get_page_map()` after the configuration reads `8192` keeps its map,
set and counter but stores the page size again; the state is not left unchanged and the page
size is captured although the registry was Initialized. Likewise, with the configuration
unchanged, once another thread has run `free_page_map()` the Initialized registry of thread
0 reads `2^64 - 1`, and its next `get_page_map()` stores `4096` again. -/
theorem get_page_map_recaptures_page_size :
    (init_page_map 64
        ⟨3, fun _ => "4096", fun str _ => str.data.foldl (fun n ch => 10 * n + (ch.toNat - 48)) 0⟩
        initial)
        = ⟨some [], some [], 0, 3, 4096⟩
    ∧ get_page_map 64
          ⟨3, fun _ => "8192", fun str _ => str.data.foldl (fun n ch => 10 * n + (ch.toNat - 48)) 0⟩
          ⟨some [], some [], 0, 3, 4096⟩
        = some ([], ⟨some [], some [], 0, 3, 8192⟩)
    ∧ (⟨some [], some [], 0, 3, 8192⟩ : PageStore) ≠ ⟨some [], some [], 0, 3, 4096⟩
    ∧ (Process.free_page_map 64 1
          (Process.init_page_map 64
            ⟨0, fun _ => "4096",
              fun str _ => str.data.foldl (fun n ch => 10 * n + (ch.toNat - 48)) 0⟩
            0 Process.initial)).view 0
        = ⟨some [], some [], 0, 0, 2 ^ 64 - 1⟩
    ∧ get_page_map 64
          ⟨0, fun _ => "4096", fun str _ => str.data.foldl (fun n ch => 10 * n + (ch.toNat - 48)) 0⟩
          ⟨some [], some [], 0, 0, 2 ^ 64 - 1⟩
        = some ([], ⟨some [], some [], 0, 0, 4096⟩)
    ∧ (⟨some [], some [], 0, 0, 4096⟩ : PageStore) ≠ ⟨some [], some [], 0, 0, 2 ^ 64 - 1⟩ := by
  decide

/-- C11 amended. On every Initialized registry `get_page_map()` returns the existing map
with exactly the pages registered and leaves map, set and per-thread counter as they are;
thread identity and page size are assigned on every call, on an Initialized registry as on
an Uninitialized one, so the state is left unchanged exactly when
`Context::get_local_tid()` and the extracted page size equal the stored values. -/
theorem get_page_map_on_initialized (w : Nat) (ctx : Context) (m : PageMap) (st : PageSet)
    (c t ps : Nat) :
    get_page_map w ctx ⟨some m, some st, c, t, ps⟩
        = some (m, ⟨some m, some st, c, ctx.get_local_tid % 2 ^ w,
            ctx.extract (ctx.get_param "page_size") ps % 2 ^ w⟩)
    ∧ get_page_map w ctx ⟨none, none, c, t, ps⟩
        = some ([], ⟨some [], some [], c, ctx.get_local_tid % 2 ^ w,
            ctx.extract (ctx.get_param "page_size") ps % 2 ^ w⟩)
    ∧ (get_page_map w ctx ⟨some m, some st, c, t, ps⟩
          = some (m, ⟨some m, some st, c, t, ps⟩)
        ↔ ctx.get_local_tid % 2 ^ w = t
          ∧ ctx.extract (ctx.get_param "page_size") ps % 2 ^ w = ps) := by
  refine ⟨rfl, rfl, ?_⟩
  simp [get_page_map, init_page_map]

/-- C12 (free_page_map is idempotent and total). From every registry state, map and set
each present or absent, `free_page_map()` ends with map absent, set absent, counter 0 and
thread identity and page size both `2^w - 1`; it releases the map exactly when it was
present and the set exactly when it was present; called again it changes nothing and
releases nothing, so over both calls neither container is released twice. -/
theorem free_page_map_idempotent (w : Nat) (s : PageStore) :
    (free_page_map w s).1 = ⟨none, none, 0, 2 ^ w - 1, 2 ^ w - 1⟩
    ∧ (free_page_map w s).2
        = (if s.page_map_.isSome then [Event.delete_map] else [])
          ++ (if s.page_set_.isSome then [Event.delete_set] else [])
    ∧ free_page_map w (free_page_map w s).1 = ((free_page_map w s).1, [])
    ∧ ((free_page_map w s).2 ++ (free_page_map w (free_page_map w s).1).2).count
        Event.delete_map ≤ 1
    ∧ ((free_page_map w s).2 ++ (free_page_map w (free_page_map w s).1).2).count
        Event.delete_set ≤ 1 := by
  obtain ⟨pm, pst, c, t, ps⟩ := s
  cases pm <;> cases pst <;> simp [free_page_map]

theorem reg_step_presence (w : Nat) (s : PageStore) (op : RegOp)
    (h : s.page_map_.isSome = s.page_set_.isSome) :
    ∃ s1, reg_step w s op = some s1 ∧ s1.page_map_.isSome = s1.page_set_.isSome := by
  obtain ⟨pm, pst, c, t, ps⟩ := s
  cases pm <;> cases pst <;> simp at h <;> cases op <;>
    simp [reg_step, get_page_map, init_page_map, drop_all_pages, free_page_map]

theorem reg_run_presence (w : Nat) (ops : List RegOp) :
    ∀ s : PageStore, s.page_map_.isSome = s.page_set_.isSome →
      ∃ s1, reg_run w s ops = some s1 ∧ s1.page_map_.isSome = s1.page_set_.isSome := by
  induction ops with
  | nil => intro s h; exact ⟨s, rfl, h⟩
  | cons op rest ih =>
    intro s h
    obtain ⟨s1, hs1, h1⟩ := reg_step_presence w s op h
    obtain ⟨s2, hs2, h2⟩ := ih s1 h1
    exact ⟨s2, by simp [reg_run, hs1, hs2], h2⟩

/-- C18 (map and set are present together). Every sequence of `get_page_map()`,
`init_page_map()`, `drop_all_pages()` and `free_page_map()` calls from the initial state
runs without going through a null pointer and ends in a state where the map is present if
and only if the set is; in that state `drop_all_pages()` completes, so `page_set_->clear()`
does not act on an absent set, and `get_page_map()` returns a map. -/
theorem map_and_set_present_together (w : Nat) (ops : List RegOp) :
    ∃ s, reg_run w initial ops = some s
      ∧ (s.page_map_.isSome = true ↔ s.page_set_.isSome = true)
      ∧ (∃ s1 ev, drop_all_pages s = some (s1, ev))
      ∧ ∀ ctx, ∃ m s1, get_page_map w ctx s = some (m, s1) ∧ s1.page_map_ = some m := by
  obtain ⟨s, hs, hp⟩ := reg_run_presence w ops initial rfl
  refine ⟨s, hs, by rw [hp], ?_, ?_⟩
  · obtain ⟨pm, pst, c, t, ps⟩ := s
    cases pm <;> cases pst <;> simp at hp <;> simp [drop_all_pages]
  · intro ctx
    obtain ⟨pm, pst, c, t, ps⟩ := s
    cases pm with
    | none => exact ⟨_, _, rfl, rfl⟩
    | some m => exact ⟨_, _, rfl, rfl⟩

/-- C19 (cross-thread effect of registry operations). In a process with one shared
`page_size_` and per-thread map, set, counter and thread identity, `free_page_map()` or
`init_page_map()` run by thread `i` leaves the four thread-local members of every other
thread `j` as they are, and stores in the shared page size `2^w - 1`, respectively the value
extracted from the configuration of thread `i`. So, with two threads initialising in turn
under configurations `4096` and `8192`, thread 0 is still Initialized and reads 8192; and
after thread 1 frees its registry thread 0, still Initialized, reads `2^64 - 1`. -/
theorem page_size_shared_across_threads (w : Nat) (ctx : Context) (P : Process) (i j : Nat)
    (hij : j ≠ i) :
    (Process.free_page_map w i P).locals j = P.locals j
    ∧ (Process.free_page_map w i P).page_size_ = 2 ^ w - 1
    ∧ (Process.init_page_map w ctx i P).locals j = P.locals j
    ∧ (Process.init_page_map w ctx i P).page_size_
        = ctx.extract (ctx.get_param "page_size") P.page_size_ % 2 ^ w
    ∧ ((Process.init_page_map 64 ⟨0, fun _ => "4096", fun _ _ => 4096⟩ 0
          Process.initial).view 0).page_size_ = 4096
    ∧ ((Process.init_page_map 64 ⟨1, fun _ => "8192", fun _ _ => 8192⟩ 1
          (Process.init_page_map 64 ⟨0, fun _ => "4096", fun _ _ => 4096⟩ 0
            Process.initial)).view 0)
        = ⟨some [], some [], 0, 0, 8192⟩
    ∧ ((Process.free_page_map 64 1
          (Process.init_page_map 64 ⟨1, fun _ => "8192", fun _ _ => 8192⟩ 1
            (Process.init_page_map 64 ⟨0, fun _ => "4096", fun _ _ => 4096⟩ 0
              Process.initial))).view 0)
        = ⟨some [], some [], 0, 0, 2 ^ 64 - 1⟩ := by
  refine ⟨?_, rfl, ?_, rfl, by decide, by decide, by decide⟩
  · simp [Process.free_page_map, Process.store, hij]
  · simp [Process.init_page_map, Process.store, hij]

/-- Witness for C19: threads 0 and 1, thread 0 freeing or initialising. -/
theorem page_size_shared_across_threads_witness :
    (1 : Nat) ≠ 0
    ∧ (Process.free_page_map 64 0 Process.initial).locals 1 = Process.initial.locals 1
    ∧ (Process.free_page_map 64 0 Process.initial).page_size_ = 2 ^ 64 - 1 :=
  ⟨by decide,
    (page_size_shared_across_threads 64 ⟨0, fun _ => "4096", fun _ _ => 4096⟩
      Process.initial 0 1 (by decide)).1,
    (page_size_shared_across_threads 64 ⟨0, fun _ => "4096", fun _ _ => 4096⟩
      Process.initial 0 1 (by decide)).2.1⟩

end registry_claims

end husky
